import Mathlib

/-!
MPD: the embedded cue sheet playlist plugin

A shallow embedding of `src/playlist/plugins/EmbeddedCuePlaylistPlugin.cxx`
(`ExtractCuesheetTagHandler::OnPair`, `embcue_playlist_open_uri`,
`EmbeddedCuePlaylist::NextSong`) and of `src/ConsumeMode.cxx` (`ConsumeToString`,
`ConsumeFromString`), and the properties proved about them.

C strings are lists of characters; a buffer is a list of characters followed
by an implicit terminating NUL, and a pointer into a buffer is an offset.
Collaborators whose code is not part of the sources (the cue parser, the tag
scanners, the path helpers) are taken as parameters.
-/

namespace MPD

/-! ## Characters and C string primitives -/

/-- The NUL character terminating a C string. -/
def NUL : Char := Char.ofNat 0

/-- Carriage return. -/
def CR : Char := Char.ofNat 13

/-- Line feed. -/
def LF : Char := Char.ofNat 10

/-- The character read through a pointer at offset `i` of the buffer: the
terminating NUL at the end of the buffer (and past it, where the source never
reads). -/
def charAt (buf : List Char) (i : Nat) : Char :=
  buf.getD i NUL

/-- The scan of `strpbrk(s, "\r\n")` over the characters from offset `i` on: the
offset of the first CR or LF found before the terminating NUL. -/
def strpbrkFrom : List Char → Nat → Option Nat
  | [], _ => none
  | c :: cs, i =>
    if c = NUL then none
    else if c = CR ∨ c = LF then some i
    else strpbrkFrom cs (i + 1)

/-- The call `strpbrk(buf + i, "\r\n")`, as an offset into `buf`. -/
def strpbrk (buf : List Char) (i : Nat) : Option Nat :=
  strpbrkFrom (buf.drop i) i

/-- The C string that starts at offset `i` of the buffer: the characters up to the
first NUL. -/
def cstrAt (buf : List Char) (i : Nat) : List Char :=
  (buf.drop i).takeWhile (fun c => decide (c ≠ NUL))

/-- The call `strlen(buf + i)`. -/
def strlen (buf : List Char) (i : Nat) : Nat :=
  (cstrAt buf i).length

/-! ## Collaborators -/

/-- Modelled from the spec: the track descriptor `DetachedSong` (its header is not
among the sources): a location/URI field, and the other fields (title, performer,
start offset) kept abstract. -/
structure DetachedSong (α : Type) where
  uri : List Char
  other : α
deriving DecidableEq, Repr

/-- The setter `DetachedSong::SetURI`: only the location changes. -/
def DetachedSong.SetURI {α : Type} (song : DetachedSong α) (u : List Char) : DetachedSong α :=
  { song with uri := u }

/-- Modelled from the spec: the interface of the grammar parser `CueParser` (its code
is not among the sources), as operations on a parser state `σ`: `Feed` takes one
line, `Get` drains at most one completed descriptor, `Finish` signals end of input. -/
structure CueParser (σ α : Type) where
  Feed : σ → List Char → σ
  Get : σ → Option (DetachedSong α) × σ
  Finish : σ → σ

/-! ## The enumerator -/

/-- The fields of `class EmbeddedCuePlaylist`: `next` is the offset of the next line
within `cuesheet`. -/
structure EmbeddedCuePlaylist (σ : Type) where
  filename : List Char
  cuesheet : List Char
  next : Nat
  parser : σ
deriving DecidableEq, Repr

/-- One line taken off the buffer, lines 132 to 141 of the source: with `eol` the
result of `strpbrk(next, "\r\n")`, the buffer gets a NUL at `eol` and `next` moves
one past it; without one `next` moves to the end of the string. The result is
the buffer and the new `next`. -/
def takeLine (buf : List Char) (next : Nat) : List Char × Nat :=
  match strpbrk buf next with
  | some eol => (buf.set eol NUL, eol + 1)
  | none => (buf, next + strlen buf next)

/-- The `while (*next != 0)` loop of `EmbeddedCuePlaylist::NextSong`. The result is
`some (some song, pl)` when the loop returns a song, `some (none, pl)` when the loop
condition fails, and `none` when `fuel` iterations were not enough. -/
def NextSongLoop {σ α : Type} (P : CueParser σ α) :
    Nat → EmbeddedCuePlaylist σ → Option (Option (DetachedSong α) × EmbeddedCuePlaylist σ)
  | fuel, pl =>
    if charAt pl.cuesheet pl.next = NUL then some (none, pl)
    else
      match fuel with
      | 0 => none
      | fuel + 1 =>
        let line := pl.next
        let moved := takeLine pl.cuesheet pl.next
        let fed := P.Feed pl.parser (cstrAt moved.1 line)
        match P.Get fed with
        | (some song, p) =>
          some (some (song.SetURI pl.filename),
                { pl with cuesheet := moved.1, next := moved.2, parser := p })
        | (none, p) =>
          NextSongLoop P fuel { pl with cuesheet := moved.1, next := moved.2, parser := p }

/-- The method `EmbeddedCuePlaylist::NextSong`: the returned song (or null) and the
state of the enumerator after the call. The loop gets one unit of fuel for each
character at or after `next`; the result is `none` only if that is not enough. -/
def NextSong {σ α : Type} (P : CueParser σ α) (pl : EmbeddedCuePlaylist σ) :
    Option (Option (DetachedSong α) × EmbeddedCuePlaylist σ) :=
  match P.Get pl.parser with
  | (some song, p) => some (some (song.SetURI pl.filename), { pl with parser := p })
  | (none, p) =>
    match NextSongLoop P (pl.cuesheet.length - pl.next) { pl with parser := p } with
    | none => none
    | some (some song, pl1) => some (some song, pl1)
    | some (none, pl1) =>
      let got := P.Get (P.Finish pl1.parser)
      some (got.1.map (fun song => song.SetURI pl1.filename), { pl1 with parser := got.2 })

/-- The results of `n` successive `NextSong` calls on one enumerator, in call order,
and the state after the last call. -/
def NextSongs {σ α : Type} (P : CueParser σ α) :
    Nat → EmbeddedCuePlaylist σ →
      Option (List (Option (DetachedSong α)) × EmbeddedCuePlaylist σ)
  | 0, pl => some ([], pl)
  | n + 1, pl =>
    match NextSong P pl with
    | none => none
    | some (r, pl1) =>
      match NextSongs P n pl1 with
      | none => none
      | some (rs, pl2) => some (r :: rs, pl2)

/-! ## Extraction of the cue sheet from the tags -/

/-- Modelled from the spec: `StringEqualsCaseASCII` (util/ASCII.hxx is not among the
sources), equality of two strings up to the case of ASCII letters. -/
def StringEqualsCaseASCII (a b : List Char) : Bool :=
  a.map Char.toLower == b.map Char.toLower

/-- The field of `class ExtractCuesheetTagHandler`. -/
structure ExtractCuesheetTagHandler where
  cuesheet : List Char
deriving DecidableEq, Repr

/-- The method `ExtractCuesheetTagHandler::OnPair`; `name` and `value` are the
characters of the two C strings. -/
def ExtractCuesheetTagHandler.OnPair (h : ExtractCuesheetTagHandler)
    (name value : List Char) : ExtractCuesheetTagHandler :=
  if h.cuesheet.isEmpty && StringEqualsCaseASCII name "cuesheet".toList then
    { cuesheet := value }
  else h

/-- A tag scan delivering the given pairs to the handler, one `OnPair` call each, in
order. -/
def deliverPairs (h : ExtractCuesheetTagHandler) (pairs : List (List Char × List Char)) :
    ExtractCuesheetTagHandler :=
  pairs.foldl (fun h kv => h.OnPair kv.1 kv.2) h

/-- Whether a pair has a key equal to `cuesheet` up to ASCII case and a non-empty
value. -/
def isCuesheetPair (kv : List Char × List Char) : Bool :=
  StringEqualsCaseASCII kv.1 "cuesheet".toList && !kv.2.isEmpty

/-- The value of the first pair with a key equal to `cuesheet` up to ASCII case and a
non-empty value; empty if there is none. -/
def firstCuesheet (pairs : List (List Char × List Char)) : List Char :=
  ((pairs.find? isCuesheetPair).map Prod.snd).getD []

/-- The functions that `embcue_playlist_open_uri` calls and whose code is not among the
sources, over a state `ω` of the outside world: the path helpers, the two tag scans,
each giving the pairs it delivers to the handler or failing with an exception `ε`, and
the constructor of `CueParser`. -/
structure Collaborators (ω ε Path σ : Type) where
  IsAbsolute : List Char → Bool
  FromUTF8Throw : List Char → Except ε Path
  ScanFileTagsNoGeneric : Path → ω → Except ε (List (List Char × List Char) × ω)
  ScanGenericTags : Path → ω → Except ε (List (List Char × List Char) × ω)
  GetBase : List Char → List Char
  NewCueParser : ω → σ × ω

/-- The function `embcue_playlist_open_uri`: the playlist returned (or null) and the
outside world after the call, or the exception thrown. -/
def embcue_playlist_open_uri {ω ε Path σ : Type} (E : Collaborators ω ε Path σ)
    (uri : List Char) (w : ω) : Except ε (Option (EmbeddedCuePlaylist σ) × ω) :=
  if !E.IsAbsolute uri then Except.ok (none, w)
  else
    match E.FromUTF8Throw uri with
    | Except.error e => Except.error e
    | Except.ok path_fs =>
      match E.ScanFileTagsNoGeneric path_fs w with
      | Except.error e => Except.error e
      | Except.ok (pairs, w1) =>
        let extract_cuesheet := deliverPairs { cuesheet := [] } pairs
        let scanned : Except ε (ExtractCuesheetTagHandler × ω) :=
          if extract_cuesheet.cuesheet.isEmpty then
            match E.ScanGenericTags path_fs w1 with
            | Except.error e => Except.error e
            | Except.ok (pairs2, w2) => Except.ok (deliverPairs extract_cuesheet pairs2, w2)
          else Except.ok (extract_cuesheet, w1)
        match scanned with
        | Except.error e => Except.error e
        | Except.ok (extracted, w2) =>
          if extracted.cuesheet.isEmpty then Except.ok (none, w2)
          else
            let made := E.NewCueParser w2
            Except.ok
              (some { filename := E.GetBase uri, cuesheet := extracted.cuesheet, next := 0,
                      parser := made.1 },
                made.2)

/-! ## Observing the calls to the collaborators -/

/-- One call made to the parser. -/
inductive ParserCall where
  | feed (line : List Char)
  | get
  | finish
deriving DecidableEq, Repr

/-- The parser `P` with a log of the calls it received, oldest first. -/
def traced {σ α : Type} (P : CueParser σ α) : CueParser (σ × List ParserCall) α where
  Feed := fun s line => (P.Feed s.1 line, s.2 ++ [ParserCall.feed line])
  Get := fun s => ((P.Get s.1).1, ((P.Get s.1).2, s.2 ++ [ParserCall.get]))
  Finish := fun s => (P.Finish s.1, s.2 ++ [ParserCall.finish])

/-- The lines of the `Feed` calls of a log, in order. -/
def feedsOf : List ParserCall → List (List Char)
  | [] => []
  | ParserCall.feed line :: cs => line :: feedsOf cs
  | _ :: cs => feedsOf cs

/-- The number of `Finish` calls of a log. -/
def finishCount (log : List ParserCall) : Nat :=
  log.count ParserCall.finish

/-- The parser calls of the feeding loop for the given lines: each line is fed and
followed by one drain. -/
def feedCalls : List (List Char) → List ParserCall
  | [] => []
  | l :: ls => ParserCall.feed l :: ParserCall.get :: feedCalls ls

/-- One call made to a collaborator of `embcue_playlist_open_uri`. -/
inductive CollaboratorCall where
  | scanFileTagsNoGeneric
  | scanGenericTags
  | newCueParser
deriving DecidableEq, Repr

/-- The collaborators `E` with a log of the scans and parser constructions, oldest
first. -/
def logged {ω ε Path σ : Type} (E : Collaborators ω ε Path σ) :
    Collaborators (ω × List CollaboratorCall) ε Path σ where
  IsAbsolute := E.IsAbsolute
  FromUTF8Throw := E.FromUTF8Throw
  ScanFileTagsNoGeneric := fun p w =>
    match E.ScanFileTagsNoGeneric p w.1 with
    | Except.error e => Except.error e
    | Except.ok (pairs, w1) =>
      Except.ok (pairs, (w1, w.2 ++ [CollaboratorCall.scanFileTagsNoGeneric]))
  ScanGenericTags := fun p w =>
    match E.ScanGenericTags p w.1 with
    | Except.error e => Except.error e
    | Except.ok (pairs, w1) =>
      Except.ok (pairs, (w1, w.2 ++ [CollaboratorCall.scanGenericTags]))
  GetBase := E.GetBase
  NewCueParser := fun w =>
    ((E.NewCueParser w.1).1, ((E.NewCueParser w.1).2, w.2 ++ [CollaboratorCall.newCueParser]))

/-! ## Notions of the specification -/

/-- Whether a character is a line delimiter, CR or LF. -/
def isEOL (c : Char) : Bool :=
  c == CR || c == LF

/-- The lines of a text as the specification words them: the text split at every single
CR or LF, in textual order, without the empty remainder after a final delimiter (the
empty text has no line). -/
def splitLines (text : List Char) : List (List Char) :=
  let pieces := text.splitOnP isEOL
  if pieces.getLast? = some [] then pieces.dropLast else pieces

/-- The undelimited final line of a text: the suffix after the last CR or LF, or the
whole text if there is none. -/
def finalLine (text : List Char) : List Char :=
  text.rtakeWhile (fun c => !isEOL c)

/-- A line separator of a cue sheet text. -/
inductive Separator where
  | cr
  | lf
  | crlf
deriving DecidableEq, Repr

/-- The characters of a separator. -/
def Separator.chars : Separator → List Char
  | Separator.cr => [CR]
  | Separator.lf => [LF]
  | Separator.crlf => [CR, LF]

/-- The text made of the given lines, with the separator `seps i` between line `i` and
line `i + 1`. -/
def joinLines : List (List Char) → (Nat → Separator) → List Char
  | [], _ => []
  | [l], _ => l
  | l :: l2 :: ls, seps =>
    l ++ (seps 0).chars ++ joinLines (l2 :: ls) (fun i => seps (i + 1))

/-- A second `Finish` leaves the parser as the first one left it. -/
def FinishIdempotent {σ α : Type} (P : CueParser σ α) : Prop :=
  ∀ s, P.Finish (P.Finish s) = P.Finish s

/-- A drain that yields nothing leaves the parser state unchanged. -/
def IdleDrain {σ α : Type} (P : CueParser σ α) : Prop :=
  ∀ s, (P.Get s).1 = none → (P.Get s).2 = s

/-- The parser ignores empty lines: right after a drain that yielded nothing, feeding
an empty line and draining again yields nothing and leaves the parser state as it
was. -/
def IgnoresEmptyLines {σ α : Type} (P : CueParser σ α) : Prop :=
  ∀ s, (P.Get s).1 = none → P.Get (P.Feed (P.Get s).2 []) = (none, (P.Get s).2)

/-- The parser guards its end of input signal itself, as with a flag that the first
`Finish` sets: a second `Finish` leaves the parser as the first one left it; where
`Finish` changes nothing, it changes nothing after a drain either; and there, after a
drain that yielded nothing, the next drain yields nothing. -/
def FinishGuarded {σ α : Type} (P : CueParser σ α) : Prop :=
  (∀ s, P.Finish (P.Finish s) = P.Finish s) ∧
    ∀ s, P.Finish s = s →
      P.Finish (P.Get s).2 = (P.Get s).2 ∧
        ((P.Get s).1 = none → (P.Get (P.Get s).2).1 = none)

/-- The descriptors that a parser hands out after its end of input signal: it is
drained until a drain yields nothing. The result is `none` when `fuel` drains do not
reach that point. -/
def completedAfterFinish {σ α : Type} (P : CueParser σ α) :
    Nat → σ → Option (List (DetachedSong α))
  | 0, _ => none
  | fuel + 1, s =>
    match P.Get s with
    | (some d, s1) => (completedAfterFinish P fuel s1).map (fun ds => d :: ds)
    | (none, _) => some []

/-- The descriptors that a parser completes for a list of lines when it is driven as
its interface asks, with one end of input signal: the parser is drained while it has a
completed descriptor, fed the next line when it has none, sent `Finish` once after the
last line, and drained until it has none. The number of track boundaries that the
parser finds in the lines is the length of this list. The result is `none` when `fuel`
drains do not reach the end. -/
def completedOn {σ α : Type} (P : CueParser σ α) :
    Nat → σ → List (List Char) → Option (List (DetachedSong α))
  | 0, _, _ => none
  | fuel + 1, s, lines =>
    match P.Get s with
    | (some d, s1) => (completedOn P fuel s1 lines).map (fun ds => d :: ds)
    | (none, s1) =>
      match lines with
      | l :: ls => completedOn P fuel (P.Feed s1 l) ls
      | [] => completedAfterFinish P fuel (P.Finish s1)

/-! ## The enumerator as a machine on lines -/

/-- The lines of a text: the text cut at every CR and every LF, without an empty
piece after the last of them. -/
def cutLines : List Char → List (List Char)
  | [] => []
  | c :: cs =>
    if c = CR ∨ c = LF then [] :: cutLines cs
    else
      match cutLines cs with
      | [] => [[c]]
      | l :: ls => (c :: l) :: ls

/-- The lines that the loop of `NextSong` still has to feed in a state: the C string
at `next`, cut at every CR and LF. -/
def pendingLines (buf : List Char) (next : Nat) : List (List Char) :=
  cutLines (cstrAt buf next)

/-- The feeding loop on a list of lines instead of a buffer: the lines are fed one by
one, each followed by a drain, until a drain yields a song. The result is the song
(with its location set to `filename`), the parser state and the lines not yet fed. -/
def driveLines {σ α : Type} (P : CueParser σ α) (filename : List Char) :
    σ → List (List Char) → Option (DetachedSong α) × σ × List (List Char)
  | s, [] => (none, s, [])
  | s, l :: ls =>
    match P.Get (P.Feed s l) with
    | (some song, s1) => (some (song.SetURI filename), s1, ls)
    | (none, s1) => driveLines P filename s1 ls

/-- One pull on a list of lines: the entry drain, then the feeding loop, then the end
of input signal and the final drain. -/
def drive {σ α : Type} (P : CueParser σ α) (filename : List Char) (s : σ)
    (lines : List (List Char)) : Option (DetachedSong α) × σ × List (List Char) :=
  match P.Get s with
  | (some song, s1) => (some (song.SetURI filename), s1, lines)
  | (none, s1) =>
    match driveLines P filename s1 lines with
    | (some song, s2, rest) => (some song, s2, rest)
    | (none, s2, rest) =>
      ((P.Get (P.Finish s2)).1.map (fun song => song.SetURI filename),
        (P.Get (P.Finish s2)).2, rest)

/-- The results of `n` successive pulls on a list of lines. -/
def drives {σ α : Type} (P : CueParser σ α) (filename : List Char) :
    Nat → σ → List (List Char) → List (Option (DetachedSong α)) × σ × List (List Char)
  | 0, s, lines => ([], s, lines)
  | n + 1, s, lines =>
    match drive P filename s lines with
    | (r, s1, rest) =>
      match drives P filename n s1 rest with
      | (rs, s2, rest2) => (r :: rs, s2, rest2)

/-- What a log of parser calls and the lines still to feed look like at any time of an
enumeration over the lines `all`: either no `Finish` was sent and the lines fed so far
followed by the lines still to feed are `all`; or the log is `a ++ finish :: b`, where
`a` has no `Finish` and feeds exactly `all`, `b` feeds nothing, and no line is left. -/
def Enumerating (all : List (List Char)) (log : List ParserCall)
    (rest : List (List Char)) : Prop :=
  (ParserCall.finish ∉ log ∧ feedsOf log ++ rest = all) ∨
    (∃ a b, log = a ++ ParserCall.finish :: b ∧ ParserCall.finish ∉ a ∧
      feedsOf a = all ∧ feedsOf b = [] ∧ rest = [])

/-- What the feeding loop may have done to the buffer between the offsets `lo` and `hi`:
the length is the same, and every position whose character differs lies at or after
`lo` and before `hi`, held CR or LF in `old` and holds NUL in `new`. -/
def DelimitersCleared (old new : List Char) (lo hi : Nat) : Prop :=
  new.length = old.length ∧
    ∀ i, new[i]? ≠ old[i]? →
      lo ≤ i ∧ i < hi ∧ (old[i]? = some CR ∨ old[i]? = some LF) ∧ new[i]? = some NUL

/-- The buffer and `next` after `k` lines were taken off the buffer, one `takeLine`
each. -/
def takeLines : Nat → List Char × Nat → List Char × Nat
  | 0, st => st
  | k + 1, st => takeLines k (takeLine st.1 st.2)

/-- The parser state after the given lines were fed, each followed by one drain whose
result is dropped. -/
def afterLines {σ α : Type} (P : CueParser σ α) (s : σ) (lines : List (List Char)) : σ :=
  lines.foldl (fun s l => (P.Get (P.Feed s l)).2) s

/-- Whether the parser completes nothing while the given lines are fed: the drain after
each of them yields nothing. -/
def quietOn {σ α : Type} (P : CueParser σ α) : σ → List (List Char) → Bool
  | _, [] => true
  | s, l :: ls =>
    (P.Get (P.Feed s l)).1.isNone && quietOn P (P.Get (P.Feed s l)).2 ls

/-! ## Test doubles -/

/-- A parser that never completes a descriptor. -/
def nullParser : CueParser Unit Unit where
  Feed := fun _ _ => ()
  Get := fun _ => (none, ())
  Finish := fun _ => ()

/-- A parser that completes a descriptor at its second `Finish`: the state counts the
`Finish` calls. -/
def secondFinishParser : CueParser Nat Unit where
  Feed := fun s _ => s
  Get := fun s => if s = 2 then (some ⟨[], ()⟩, 3) else (none, s)
  Finish := fun s => s + 1

/-- The state of `trackParser`: the title of the track being read, and the
descriptors completed and not yet drained. -/
structure TrackState where
  current : Option (List Char)
  completed : List (DetachedSong (List Char))
deriving DecidableEq, Repr

/-- The descriptor of a finished track of `trackParser`, located at `cd.wav`. -/
def TrackState.commit : Option (List Char) → List (DetachedSong (List Char))
  | none => []
  | some title => [⟨"cd.wav".toList, title⟩]

/-- A small parser of `TRACK` and `TITLE` lines, to run the enumerator on: a `TRACK`
line or `Finish` completes the track being read, `Get` drains the oldest completed
descriptor, and every other line is ignored. -/
def trackParser : CueParser TrackState (List Char) where
  Feed := fun s line =>
    if "TRACK".toList.isPrefixOf line then
      { current := some [], completed := s.completed ++ TrackState.commit s.current }
    else if "TITLE ".toList.isPrefixOf line then
      { s with current := s.current.map (fun _ => (line.drop 6).filter (fun c => c != Char.ofNat 34)) }
    else s
  Get := fun s =>
    match s.completed with
    | [] => (none, s)
    | d :: ds => (some d, { s with completed := ds })
  Finish := fun s =>
    { current := none, completed := s.completed ++ TrackState.commit s.current }

/-- The track parser without a guard of its own on `Finish`: `Finish` completes the
track being read and keeps reading it, so every further `Finish` completes it again. -/
def unguardedTrackParser : CueParser TrackState (List Char) where
  Feed := trackParser.Feed
  Get := trackParser.Get
  Finish := fun s =>
    { s with completed := s.completed ++ TrackState.commit s.current }

/-- Collaborators to run `embcue_playlist_open_uri` on: a path is absolute when it
starts with a slash, its base is what follows the last slash, the two scans deliver
the pairs given, and a new parser is the track parser in its initial state. -/
def fileWithTags (native generic : List (List Char × List Char)) :
    Collaborators Unit Unit (List Char) TrackState where
  IsAbsolute := fun uri => uri.head? == some '/'
  FromUTF8Throw := fun uri => Except.ok uri
  ScanFileTagsNoGeneric := fun _ w => Except.ok (native, w)
  ScanGenericTags := fun _ w => Except.ok (generic, w)
  GetBase := fun uri => uri.rtakeWhile (fun c => c != '/')
  NewCueParser := fun w => (⟨none, []⟩, w)

/-- The values of `enum class ConsumeMode`. -/
inductive ConsumeMode where
  | OFF
  | ON
  | ONE_SHOT
deriving DecidableEq, Repr

/-- The exception thrown by `ConsumeFromString`: `std::invalid_argument` with its
message. -/
inductive ConsumeError where
  | invalid_argument (what : String)
deriving DecidableEq, Repr

/-- The function `ConsumeToString`, giving the characters of the C string returned. -/
def ConsumeToString : ConsumeMode → List Char
  | ConsumeMode.OFF => "0".toList
  | ConsumeMode.ON => "1".toList
  | ConsumeMode.ONE_SHOT => "oneshot".toList

/-- The function `ConsumeFromString` on the characters of a C string: `strcmp(s, t) == 0`
is equality of the characters. -/
def ConsumeFromString (s : List Char) : Except ConsumeError ConsumeMode :=
  if s = "0".toList then Except.ok ConsumeMode.OFF
  else if s = "1".toList then Except.ok ConsumeMode.ON
  else if s = "oneshot".toList then Except.ok ConsumeMode.ONE_SHOT
  else
    Except.error
      (ConsumeError.invalid_argument "Unrecognized consume mode, expected 0, 1, or oneshot")

/-! ## One line taken off the buffer -/

theorem cutLines_append_eol (pre : List Char) (d : Char) (r : List Char)
    (hpre : ∀ c ∈ pre, ¬ (c = CR ∨ c = LF)) (hd : d = CR ∨ d = LF) :
    cutLines (pre ++ d :: r) = pre :: cutLines r := by
  induction pre with
  | nil => simp [cutLines, hd]
  | cons c cs ih =>
    have hc : ¬ (c = CR ∨ c = LF) := hpre c (List.mem_cons_self _ _)
    have ih2 := ih (fun x hx => hpre x (List.mem_cons_of_mem _ hx))
    rw [List.cons_append, cutLines, if_neg hc, ih2]

theorem cutLines_no_eol (pre : List Char) (hne : pre ≠ [])
    (hpre : ∀ c ∈ pre, ¬ (c = CR ∨ c = LF)) : cutLines pre = [pre] := by
  induction pre with
  | nil => exact absurd rfl hne
  | cons c cs ih =>
    have hc : ¬ (c = CR ∨ c = LF) := hpre c (List.mem_cons_self _ _)
    by_cases hcs : cs = []
    · subst hcs; simp [cutLines, hc]
    · have ih2 := ih hcs (fun x hx => hpre x (List.mem_cons_of_mem _ hx))
      rw [cutLines, if_neg hc, ih2]

theorem strpbrkFrom_some {l : List Char} {i e : Nat} (h : strpbrkFrom l i = some e) :
    ∃ pre d post, l = pre ++ d :: post ∧ e = i + pre.length ∧ (d = CR ∨ d = LF) ∧
      (∀ c ∈ pre, c ≠ NUL) ∧ (∀ c ∈ pre, ¬ (c = CR ∨ c = LF)) := by
  induction l generalizing i with
  | nil => simp [strpbrkFrom] at h
  | cons c cs ih =>
    unfold strpbrkFrom at h
    by_cases h0 : c = NUL
    · simp [h0] at h
    · simp only [h0, if_false] at h
      by_cases h1 : c = CR ∨ c = LF
      · simp only [h1, if_true, Option.some.injEq] at h
        exact ⟨[], c, cs, rfl, by simp [h], h1, by simp, by simp⟩
      · simp only [h1, if_false] at h
        obtain ⟨pre, d, post, hl, he, hd, hn, hp⟩ := ih h
        refine ⟨c :: pre, d, post, by simp [hl], by simp [he]; omega, hd, ?_, ?_⟩
        · intro x hx
          rcases List.mem_cons.1 hx with rfl | hx
          · exact h0
          · exact hn x hx
        · intro x hx
          rcases List.mem_cons.1 hx with rfl | hx
          · exact h1
          · exact hp x hx

theorem strpbrkFrom_none {l : List Char} {i : Nat} (h : strpbrkFrom l i = none) :
    ∀ c ∈ l.takeWhile (fun c => decide (c ≠ NUL)), ¬ (c = CR ∨ c = LF) := by
  induction l generalizing i with
  | nil => simp
  | cons c cs ih =>
    unfold strpbrkFrom at h
    by_cases h0 : c = NUL
    · simp [List.takeWhile, h0]
    · simp only [h0, if_false] at h
      by_cases h1 : c = CR ∨ c = LF
      · simp [h1] at h
      · simp only [h1, if_false] at h
        intro x hx
        simp only [List.takeWhile, ne_eq, h0, not_false_eq_true, decide_True] at hx
        rcases List.mem_cons.1 hx with rfl | hx
        · exact h1
        · exact ih h x hx

theorem set_at_length {β : Type} (a : List β) (x y : β) (b : List β) :
    (a ++ x :: b).set a.length y = a ++ y :: b := by
  induction a with
  | nil => rfl
  | cons c cs ih => simp [ih]

theorem drop_at_length_succ {β : Type} (a : List β) (x : β) (b : List β) :
    (a ++ x :: b).drop (a.length + 1) = b := by
  induction a with
  | nil => rfl
  | cons c cs ih => simp [ih]

theorem takeWhile_stop {β : Type} (p : β → Bool) (a : List β) (x : β) (b : List β)
    (ha : ∀ c ∈ a, p c = true) (hx : p x = false) :
    (a ++ x :: b).takeWhile p = a := by
  induction a with
  | nil => simp [List.takeWhile, hx]
  | cons c cs ih =>
    have hc : p c = true := ha c (List.mem_cons_self _ _)
    simp [List.takeWhile, hc, ih (fun y hy => ha y (List.mem_cons_of_mem _ hy))]

theorem takeWhile_pass {β : Type} (p : β → Bool) (a : List β) (x : β) (b : List β)
    (ha : ∀ c ∈ a, p c = true) (hx : p x = true) :
    (a ++ x :: b).takeWhile p = a ++ x :: b.takeWhile p := by
  induction a with
  | nil => simp [List.takeWhile, hx]
  | cons c cs ih =>
    have hc : p c = true := ha c (List.mem_cons_self _ _)
    simp [List.takeWhile, hc, ih (fun y hy => ha y (List.mem_cons_of_mem _ hy))]

theorem takeWhile_drop_takeWhile {β : Type} (p : β → Bool) (l : List β) :
    (l.drop (l.takeWhile p).length).takeWhile p = [] := by
  induction l with
  | nil => rfl
  | cons c cs ih =>
    by_cases hc : p c = true
    · simp [List.takeWhile, hc, ih]
    · simp [List.takeWhile, hc]

theorem charAt_ne_NUL {buf : List Char} {i : Nat} (h : charAt buf i ≠ NUL) :
    ∃ c rest, c ≠ NUL ∧ buf.drop i = c :: rest ∧ i < buf.length := by
  unfold charAt at h
  have hlt : i < buf.length := by
    by_contra hge
    exact h (by simp [List.getD, List.getElem?_eq_none (Nat.le_of_not_lt hge)])
  refine ⟨buf[i], buf.drop (i + 1), ?_, ?_, hlt⟩
  · simpa [List.getD, List.getElem?_eq_getElem hlt] using h
  · exact List.drop_eq_getElem_cons hlt

theorem length_takeWhile_le_length {β : Type} (p : β → Bool) (l : List β) :
    (l.takeWhile p).length ≤ l.length := by
  induction l with
  | nil => simp
  | cons c cs ih =>
    by_cases hc : p c = true
    · simp [List.takeWhile, hc, ih]
    · simp [List.takeWhile, hc]

theorem takeLine_spec_append (t rest : List Char) (c : Char) (hc : c ≠ NUL) :
    pendingLines (t ++ c :: rest) t.length =
        cstrAt (takeLine (t ++ c :: rest) t.length).1 t.length ::
          pendingLines (takeLine (t ++ c :: rest) t.length).1
            (takeLine (t ++ c :: rest) t.length).2 ∧
      (takeLine (t ++ c :: rest) t.length).1.length = (t ++ c :: rest).length ∧
      t.length < (takeLine (t ++ c :: rest) t.length).2 ∧
      (takeLine (t ++ c :: rest) t.length).2 ≤ (t ++ c :: rest).length := by
  have hdrop : (t ++ c :: rest).drop t.length = c :: rest := List.drop_left _ _
  unfold takeLine pendingLines
  cases hs : strpbrk (t ++ c :: rest) t.length with
  | some eol =>
    have hs2 : strpbrkFrom (c :: rest) t.length = some eol := by
      unfold strpbrk at hs; rw [hdrop] at hs; exact hs
    obtain ⟨pre, d, post, hl, he, hd, hn, hp⟩ := strpbrkFrom_some hs2
    have hdN : d ≠ NUL := by
      rcases hd with rfl | rfl <;> decide
    have h2 : eol = (t ++ pre).length := by
      rw [List.length_append]; exact he
    have hset : (t ++ c :: rest).set eol NUL = (t ++ pre) ++ NUL :: post := by
      rw [h2, hl, ← List.append_assoc]
      exact set_at_length _ _ _ _
    have hpN : ∀ x ∈ pre, decide (x ≠ NUL) = true := fun x hx => by simpa using hn x hx
    have e1 : cstrAt (t ++ c :: rest) t.length =
        pre ++ d :: post.takeWhile (fun c => decide (c ≠ NUL)) := by
      unfold cstrAt
      rw [hdrop, hl]
      exact takeWhile_pass _ _ _ _ hpN (by simpa using hdN)
    have e2 : cstrAt ((t ++ c :: rest).set eol NUL) t.length = pre := by
      unfold cstrAt
      rw [hset, List.append_assoc, List.drop_left]
      exact takeWhile_stop _ _ _ _ hpN (by simp)
    have e3 : cstrAt ((t ++ c :: rest).set eol NUL) (eol + 1) =
        post.takeWhile (fun c => decide (c ≠ NUL)) := by
      unfold cstrAt
      rw [hset, h2, drop_at_length_succ]
    have e4 : ((t ++ c :: rest).set eol NUL).length = (t ++ c :: rest).length :=
      List.length_set _ _ _
    have e5 : (c :: rest).length = pre.length + (post.length + 1) := by
      rw [hl]; simp
    refine ⟨?_, e4, ?_, ?_⟩
    · show cutLines _ = cstrAt _ _ :: cutLines (cstrAt _ _)
      rw [e1, e2, e3]
      exact cutLines_append_eol pre d _ hp hd
    · show t.length < eol + 1
      omega
    · show eol + 1 ≤ (t ++ c :: rest).length
      rw [List.length_append]
      omega
  | none =>
    have hs2 : strpbrkFrom (c :: rest) t.length = none := by
      unfold strpbrk at hs; rw [hdrop] at hs; exact hs
    have hno := strpbrkFrom_none hs2
    have hne : cstrAt (t ++ c :: rest) t.length ≠ [] := by
      unfold cstrAt
      rw [hdrop]
      simp [List.takeWhile, hc]
    have hno2 : ∀ x ∈ cstrAt (t ++ c :: rest) t.length, ¬ (x = CR ∨ x = LF) := by
      unfold cstrAt
      rw [hdrop]
      exact hno
    have e3 : cstrAt (t ++ c :: rest) (t.length + strlen (t ++ c :: rest) t.length) = [] := by
      unfold strlen cstrAt
      rw [← List.drop_drop]
      exact takeWhile_drop_takeWhile _ _
    have e6 : strlen (t ++ c :: rest) t.length ≤ (c :: rest).length := by
      unfold strlen cstrAt
      rw [hdrop]
      exact length_takeWhile_le_length _ _
    have e7 : 0 < strlen (t ++ c :: rest) t.length := List.length_pos.2 hne
    refine ⟨?_, rfl, ?_, ?_⟩
    · show cutLines _ = cstrAt _ _ :: cutLines (cstrAt _ _)
      rw [e3]
      simp only [cutLines]
      exact cutLines_no_eol _ hne hno2
    · show t.length < t.length + strlen _ _
      omega
    · show t.length + strlen _ _ ≤ (t ++ c :: rest).length
      rw [List.length_append]
      omega

theorem takeLine_spec (buf : List Char) (next : Nat) (h : charAt buf next ≠ NUL) :
    pendingLines buf next =
        cstrAt (takeLine buf next).1 next ::
          pendingLines (takeLine buf next).1 (takeLine buf next).2 ∧
      (takeLine buf next).1.length = buf.length ∧
      next < (takeLine buf next).2 ∧ (takeLine buf next).2 ≤ buf.length := by
  obtain ⟨c, rest, hc, hdrop, hlt⟩ := charAt_ne_NUL h
  obtain ⟨t, ht, hbuf⟩ : ∃ t : List Char, t.length = next ∧ buf = t ++ c :: rest := by
    refine ⟨buf.take next, ?_, ?_⟩
    · simp [List.length_take, Nat.min_eq_left (Nat.le_of_lt hlt)]
    · rw [← hdrop]; exact (List.take_append_drop next buf).symm
  subst ht
  subst hbuf
  exact takeLine_spec_append t rest c hc

theorem pendingLines_at_NUL (buf : List Char) (next : Nat) (h : charAt buf next = NUL) :
    pendingLines buf next = [] := by
  have : cstrAt buf next = [] := by
    unfold cstrAt
    cases hd : buf.drop next with
    | nil => rfl
    | cons c rest =>
      have hlt : next < buf.length := by
        by_contra hge
        rw [List.drop_eq_nil_of_le (Nat.le_of_not_lt hge)] at hd
        exact List.noConfusion hd
      have hc : c = NUL := by
        have := List.drop_eq_getElem_cons hlt
        rw [hd] at this
        have h2 : buf[next] = c := by injection this with h1 _; exact h1.symm
        unfold charAt at h
        simpa [List.getD, List.getElem?_eq_getElem hlt, h2] using h
      simp [List.takeWhile, hc]
  unfold pendingLines
  rw [this]
  rfl

/-! ## `NextSong` runs the machine on lines -/

theorem NextSongLoop_refines {σ α : Type} (P : CueParser σ α) (fuel : Nat)
    (pl : EmbeddedCuePlaylist σ) (hfuel : pl.cuesheet.length - pl.next ≤ fuel) :
    ∃ pl1 : EmbeddedCuePlaylist σ,
      NextSongLoop P fuel pl =
          some ((driveLines P pl.filename pl.parser (pendingLines pl.cuesheet pl.next)).1, pl1) ∧
        pl1.parser = (driveLines P pl.filename pl.parser (pendingLines pl.cuesheet pl.next)).2.1 ∧
        pendingLines pl1.cuesheet pl1.next =
          (driveLines P pl.filename pl.parser (pendingLines pl.cuesheet pl.next)).2.2 ∧
        pl1.filename = pl.filename ∧
        pl1.cuesheet.length = pl.cuesheet.length ∧
        pl.next ≤ pl1.next ∧
        (pl.next ≤ pl.cuesheet.length → pl1.next ≤ pl.cuesheet.length) ∧
        ((driveLines P pl.filename pl.parser (pendingLines pl.cuesheet pl.next)).1 = none →
          charAt pl1.cuesheet pl1.next = NUL) := by
  induction fuel generalizing pl with
  | zero =>
    by_cases h0 : charAt pl.cuesheet pl.next = NUL
    · refine ⟨pl, ?_⟩
      rw [pendingLines_at_NUL _ _ h0]
      simp [NextSongLoop, h0, driveLines]
    · obtain ⟨_, _, _, _, hlt⟩ := charAt_ne_NUL h0
      omega
  | succ fuel ih =>
    by_cases h0 : charAt pl.cuesheet pl.next = NUL
    · refine ⟨pl, ?_⟩
      rw [pendingLines_at_NUL _ _ h0]
      simp [NextSongLoop, h0, driveLines]
    · obtain ⟨hlines, hlen, hlt, hle⟩ := takeLine_spec pl.cuesheet pl.next h0
      rw [hlines]
      cases hg : P.Get (P.Feed pl.parser (cstrAt (takeLine pl.cuesheet pl.next).1 pl.next)) with
      | mk r p =>
        cases r with
        | some song =>
          refine ⟨{ pl with cuesheet := (takeLine pl.cuesheet pl.next).1,
                            next := (takeLine pl.cuesheet pl.next).2, parser := p }, ?_⟩
          simp only [NextSongLoop, h0, if_false, hg, driveLines]
          exact ⟨trivial, trivial, trivial, trivial, hlen, Nat.le_of_lt hlt, fun _ => hle,
            fun hcontra => Option.noConfusion hcontra⟩
        | none =>
          have hf : ({ pl with cuesheet := (takeLine pl.cuesheet pl.next).1,
                               next := (takeLine pl.cuesheet pl.next).2,
                               parser := p } : EmbeddedCuePlaylist σ).cuesheet.length -
              ({ pl with cuesheet := (takeLine pl.cuesheet pl.next).1,
                         next := (takeLine pl.cuesheet pl.next).2,
                         parser := p } : EmbeddedCuePlaylist σ).next ≤ fuel := by
            show (takeLine pl.cuesheet pl.next).1.length - (takeLine pl.cuesheet pl.next).2 ≤ fuel
            omega
          obtain ⟨pl1, h1, h2, h3, h4, h5, h6, h7, h8⟩ := ih _ hf
          refine ⟨pl1, ?_⟩
          simp only [NextSongLoop, h0, if_false, hg, driveLines]
          refine ⟨h1, h2, h3, h4, ?_, ?_, ?_, h8⟩
          · rw [h5]; exact hlen
          · exact Nat.le_trans (Nat.le_of_lt hlt) h6
          · intro _
            have := h7 (by show (takeLine pl.cuesheet pl.next).2 ≤ (takeLine pl.cuesheet pl.next).1.length
                           omega)
            simpa [hlen] using this

theorem driveLines_none {σ α : Type} (P : CueParser σ α) (filename : List Char) (s : σ)
    (lines : List (List Char)) (h : (driveLines P filename s lines).1 = none) :
    (driveLines P filename s lines).2.2 = [] := by
  induction lines generalizing s with
  | nil => rfl
  | cons l ls ih =>
    unfold driveLines at h ⊢
    cases hg : P.Get (P.Feed s l) with
    | mk r p =>
      cases r with
      | some song => rw [hg] at h; exact Option.noConfusion h
      | none =>
        rw [hg] at h
        exact ih p h

theorem NextSong_refines {σ α : Type} (P : CueParser σ α) (pl : EmbeddedCuePlaylist σ) :
    ∃ pl1 : EmbeddedCuePlaylist σ,
      NextSong P pl =
          some ((drive P pl.filename pl.parser (pendingLines pl.cuesheet pl.next)).1, pl1) ∧
        pl1.parser = (drive P pl.filename pl.parser (pendingLines pl.cuesheet pl.next)).2.1 ∧
        pendingLines pl1.cuesheet pl1.next =
          (drive P pl.filename pl.parser (pendingLines pl.cuesheet pl.next)).2.2 ∧
        pl1.filename = pl.filename ∧
        pl1.cuesheet.length = pl.cuesheet.length ∧
        pl.next ≤ pl1.next ∧
        (pl.next ≤ pl.cuesheet.length → pl1.next ≤ pl.cuesheet.length) ∧
        ((drive P pl.filename pl.parser (pendingLines pl.cuesheet pl.next)).1 = none →
          charAt pl1.cuesheet pl1.next = NUL) := by
  cases hg : P.Get pl.parser with
  | mk r p =>
    cases r with
    | some song =>
      refine ⟨{ pl with parser := p }, ?_⟩
      simp only [NextSong, drive, hg]
      exact ⟨trivial, trivial, trivial, trivial, trivial, Nat.le_refl _, fun h => h,
        fun hcontra => Option.noConfusion hcontra⟩
    | none =>
      obtain ⟨pl1, h1, h2, h3, h4, h5, h6, h7, h8⟩ :=
        NextSongLoop_refines P (pl.cuesheet.length - pl.next) { pl with parser := p }
          (Nat.le_refl _)
      simp only at h1 h2 h3 h4 h5 h6 h7 h8
      cases hd : driveLines P pl.filename p (pendingLines pl.cuesheet pl.next) with
      | mk r2 sr =>
        obtain ⟨s2, rest⟩ := sr
        rw [hd] at h1 h2 h3 h8
        simp only at h1 h2 h3 h8
        cases r2 with
        | some song =>
          refine ⟨pl1, ?_⟩
          simp only [NextSong, drive, hg, h1, hd]
          exact ⟨trivial, h2, h3, h4, h5, h6, h7, fun hcontra => Option.noConfusion hcontra⟩
        | none =>
          refine ⟨{ pl1 with parser := (P.Get (P.Finish pl1.parser)).2 }, ?_⟩
          simp only [NextSong, drive, hg, h1, hd, h2, h4]
          exact ⟨trivial, trivial, h3, trivial, h5, h6, h7, fun _ => h8 rfl⟩

theorem NextSongs_refines {σ α : Type} (P : CueParser σ α) (n : Nat)
    (pl : EmbeddedCuePlaylist σ) :
    ∃ pl1 : EmbeddedCuePlaylist σ,
      NextSongs P n pl =
          some ((drives P pl.filename n pl.parser (pendingLines pl.cuesheet pl.next)).1, pl1) ∧
        pl1.parser = (drives P pl.filename n pl.parser (pendingLines pl.cuesheet pl.next)).2.1 ∧
        pendingLines pl1.cuesheet pl1.next =
          (drives P pl.filename n pl.parser (pendingLines pl.cuesheet pl.next)).2.2 ∧
        pl1.filename = pl.filename ∧
        pl1.cuesheet.length = pl.cuesheet.length ∧
        pl.next ≤ pl1.next ∧
        (pl.next ≤ pl.cuesheet.length → pl1.next ≤ pl.cuesheet.length) := by
  induction n generalizing pl with
  | zero =>
    exact ⟨pl, rfl, rfl, rfl, rfl, rfl, Nat.le_refl _, fun h => h⟩
  | succ n ih =>
    obtain ⟨pl1, h1, h2, h3, h4, h5, h6, h7, _⟩ := NextSong_refines P pl
    obtain ⟨pl2, k1, k2, k3, k4, k5, k6, k7⟩ := ih pl1
    rw [h2, h3, h4] at k1 k2 k3
    refine ⟨pl2, ?_, ?_, ?_, ?_, ?_, ?_, ?_⟩
    · simp only [NextSongs, h1, k1, drives]
    · simp only [drives]; exact k2
    · simp only [drives]; exact k3
    · rw [k4, h4]
    · rw [k5, h5]
    · exact Nat.le_trans h6 k6
    · intro hle
      have := k7 (by rw [h5]; exact h7 hle)
      rw [h5] at this
      exact this

theorem feedsOf_append (a b : List ParserCall) : feedsOf (a ++ b) = feedsOf a ++ feedsOf b := by
  induction a with
  | nil => rfl
  | cons c cs ih =>
    cases c <;> simp [feedsOf, ih]

theorem feedsOf_feedCalls (ls : List (List Char)) : feedsOf (feedCalls ls) = ls := by
  induction ls with
  | nil => rfl
  | cons l ls ih => simp [feedCalls, feedsOf, ih]

theorem finish_not_mem_feedCalls (ls : List (List Char)) :
    ParserCall.finish ∉ feedCalls ls := by
  induction ls with
  | nil => simp [feedCalls]
  | cons l ls ih => simp [feedCalls, ih]

theorem feedCalls_append (a b : List (List Char)) :
    feedCalls (a ++ b) = feedCalls a ++ feedCalls b := by
  induction a with
  | nil => rfl
  | cons l ls ih => simp [feedCalls, ih]

/-- The traced parser behaves as the parser it wraps in the feeding loop, and logs the
feed and drain of each line consumed. -/
theorem driveLines_traced {σ α : Type} (P : CueParser σ α) (filename : List Char) (s : σ)
    (log : List ParserCall) (lines : List (List Char)) :
    (driveLines (traced P) filename (s, log) lines).1 = (driveLines P filename s lines).1 ∧
      (driveLines (traced P) filename (s, log) lines).2.1.1 =
        (driveLines P filename s lines).2.1 ∧
      (driveLines (traced P) filename (s, log) lines).2.2 =
        (driveLines P filename s lines).2.2 ∧
      ∃ consumed, consumed ++ (driveLines P filename s lines).2.2 = lines ∧
        (driveLines (traced P) filename (s, log) lines).2.1.2 = log ++ feedCalls consumed := by
  induction lines generalizing s log with
  | nil =>
    exact ⟨rfl, rfl, rfl, [], rfl, by simp [driveLines, feedCalls]⟩
  | cons l ls ih =>
    cases hg : P.Get (P.Feed s l) with
    | mk r p =>
      have hT : (traced P).Get ((traced P).Feed (s, log) l) =
          (r, (p, log ++ [ParserCall.feed l] ++ [ParserCall.get])) := by
        simp [traced, hg]
      cases r with
      | some song =>
        simp only [driveLines, hg, hT]
        exact ⟨trivial, trivial, trivial, [l], rfl, by simp [feedCalls]⟩
      | none =>
        obtain ⟨h1, h2, h3, consumed, h4, h5⟩ :=
          ih p (log ++ [ParserCall.feed l] ++ [ParserCall.get])
        simp only [driveLines, hg, hT]
        refine ⟨h1, h2, h3, l :: consumed, by simp [h4], ?_⟩
        rw [h5]
        simp [feedCalls]

theorem driveLines_some {σ α : Type} (P : CueParser σ α) (filename : List Char) (s : σ)
    (lines : List (List Char)) (song : DetachedSong α)
    (h : (driveLines P filename s lines).1 = some song) :
    ∃ q song0, P.Get q = (some song0, (driveLines P filename s lines).2.1) ∧
      song = song0.SetURI filename := by
  induction lines generalizing s with
  | nil => exact Option.noConfusion h
  | cons l ls ih =>
    cases hg : P.Get (P.Feed s l) with
    | mk r p =>
      cases r with
      | some song0 =>
        simp only [driveLines, hg] at h ⊢
        exact ⟨P.Feed s l, song0, hg, (Option.some.inj h).symm⟩
      | none =>
        simp only [driveLines, hg] at h ⊢
        exact ih p h

/-- One pull with the traced parser: the wrapped parser sees the same calls, and the
calls logged are the entry drain, the feed and drain of each line consumed and, only
when no drain has yielded a song, `Finish` and the final drain. -/
theorem drive_traced {σ α : Type} (P : CueParser σ α) (filename : List Char) (s : σ)
    (log : List ParserCall) (lines : List (List Char)) :
    (drive (traced P) filename (s, log) lines).1 = (drive P filename s lines).1 ∧
      (drive (traced P) filename (s, log) lines).2.1.1 = (drive P filename s lines).2.1 ∧
      (drive (traced P) filename (s, log) lines).2.2 = (drive P filename s lines).2.2 ∧
      ((∃ consumed song, consumed ++ (drive P filename s lines).2.2 = lines ∧
          (drive (traced P) filename (s, log) lines).2.1.2 =
            log ++ ParserCall.get :: feedCalls consumed ∧
          (drive P filename s lines).1 = some song) ∨
        ((drive P filename s lines).2.2 = [] ∧
          (drive (traced P) filename (s, log) lines).2.1.2 =
            log ++ (ParserCall.get :: feedCalls lines ++
              [ParserCall.finish, ParserCall.get]) ∧
          ∃ q, (drive P filename s lines).1 =
              (P.Get (P.Finish q)).1.map (fun song => song.SetURI filename) ∧
            (drive P filename s lines).2.1 = (P.Get (P.Finish q)).2)) := by
  cases hg : P.Get s with
  | mk r p =>
    have hT : (traced P).Get (s, log) = (r, (p, log ++ [ParserCall.get])) := by
      simp [traced, hg]
    cases r with
    | some song =>
      simp only [drive, hg, hT]
      refine ⟨trivial, trivial, trivial, Or.inl ⟨[], song.SetURI filename, rfl, ?_, rfl⟩⟩
      simp [feedCalls]
    | none =>
      obtain ⟨h1, h2, h3, consumed, h4, h5⟩ :=
        driveLines_traced P filename p (log ++ [ParserCall.get]) lines
      cases hd : driveLines P filename p lines with
      | mk r2 sr =>
        obtain ⟨s2, rest⟩ := sr
        cases hdT : driveLines (traced P) filename (p, log ++ [ParserCall.get]) lines with
        | mk r2T srT =>
          obtain ⟨⟨s2T, logT⟩, restT⟩ := srT
          simp only [hd, hdT] at h1 h2 h3 h4 h5
          subst h1 h2 h3
          cases r2T with
          | some song =>
            simp only [drive, hg, hT, hd, hdT]
            refine ⟨trivial, trivial, trivial, Or.inl ⟨consumed, song, h4, ?_, rfl⟩⟩
            rw [h5]; simp
          | none =>
            have hrest : restT = [] := by
              have := driveLines_none P filename p lines (by rw [hd])
              rw [hd] at this
              exact this
            subst hrest
            have hc : consumed = lines := by simpa using h4
            subst hc
            simp only [drive, hg, hT, hd, hdT]
            refine ⟨?_, ?_, trivial, Or.inr ⟨trivial, ?_, s2T, rfl, rfl⟩⟩
            · simp [traced]
            · simp [traced]
            · simp [traced, h5]

theorem pendingLines_eq_nil_iff (buf : List Char) (next : Nat) :
    pendingLines buf next = [] ↔ charAt buf next = NUL := by
  constructor
  · intro h
    by_contra h0
    rw [(takeLine_spec buf next h0).1] at h
    exact List.noConfusion h
  · exact pendingLines_at_NUL buf next

theorem drive_some {σ α : Type} (P : CueParser σ α) (filename : List Char) (s : σ)
    (lines : List (List Char)) (song : DetachedSong α)
    (h : (drive P filename s lines).1 = some song) :
    ∃ q song0, P.Get q = (some song0, (drive P filename s lines).2.1) ∧
      song = song0.SetURI filename := by
  cases hg : P.Get s with
  | mk r p =>
    cases r with
    | some song0 =>
      simp only [drive, hg] at h ⊢
      exact ⟨s, song0, hg, (Option.some.inj h).symm⟩
    | none =>
      cases hd : driveLines P filename p lines with
      | mk r2 sr =>
        obtain ⟨s2, rest⟩ := sr
        cases r2 with
        | some song1 =>
          simp only [drive, hg, hd] at h ⊢
          have := driveLines_some P filename p lines song1 (by rw [hd])
          rw [hd] at this
          obtain ⟨q, song0, hq, hs⟩ := this
          exact ⟨q, song0, hq, by rw [← hs]; exact (Option.some.inj h).symm⟩
        | none =>
          simp only [drive, hg, hd] at h ⊢
          cases hf : P.Get (P.Finish s2) with
          | mk r3 s3 =>
            rw [hf] at h
            cases r3 with
            | some song0 =>
              exact ⟨P.Finish s2, song0, hf, (Option.some.inj h).symm⟩
            | none => exact Option.noConfusion h

theorem drive_none {σ α : Type} (P : CueParser σ α) (filename : List Char) (s : σ)
    (lines : List (List Char)) (h : (drive P filename s lines).1 = none) :
    (drive P filename s lines).2.2 = [] ∧
      ∃ q, (P.Get (P.Finish q)).1 = none ∧
        (drive P filename s lines).2.1 = (P.Get (P.Finish q)).2 := by
  cases hg : P.Get s with
  | mk r p =>
    cases r with
    | some song0 =>
      simp only [drive, hg] at h
      exact Option.noConfusion h
    | none =>
      cases hd : driveLines P filename p lines with
      | mk r2 sr =>
        obtain ⟨s2, rest⟩ := sr
        cases r2 with
        | some song1 =>
          simp only [drive, hg, hd] at h
          exact Option.noConfusion h
        | none =>
          have hrest := driveLines_none P filename p lines (by rw [hd])
          rw [hd] at hrest
          simp only [drive, hg, hd] at h ⊢
          refine ⟨hrest, s2, ?_, rfl⟩
          cases hf : (P.Get (P.Finish s2)).1 with
          | none => rfl
          | some x => rw [hf] at h; exact Option.noConfusion h

theorem drive_finished {σ α : Type} (P : CueParser σ α) (hF : FinishIdempotent P)
    (hG : IdleDrain P) (filename : List Char) (q : σ)
    (hq : (P.Get (P.Finish q)).1 = none) :
    drive P filename (P.Finish q) [] = (none, P.Finish q, []) := by
  have h2 : P.Get (P.Finish q) = (none, P.Finish q) :=
    Prod.ext hq (hG _ hq)
  simp only [drive, h2, driveLines, hF q]
  rfl

theorem drives_finished {σ α : Type} (P : CueParser σ α) (hF : FinishIdempotent P)
    (hG : IdleDrain P) (filename : List Char) (q : σ)
    (hq : (P.Get (P.Finish q)).1 = none) (n : Nat) :
    drives P filename n (P.Finish q) [] = (List.replicate n none, P.Finish q, []) := by
  induction n with
  | zero => rfl
  | succ n ih =>
    simp only [drives, drive_finished P hF hG filename q hq, ih, List.replicate_succ]

/-! ## The lines of a text -/

theorem isEOL_iff (c : Char) : isEOL c = true ↔ (c = CR ∨ c = LF) := by
  simp [isEOL]

theorem cutLines_eq_splitLines (text : List Char) : cutLines text = splitLines text := by
  induction text with
  | nil => simp [cutLines, splitLines]
  | cons c cs ih =>
    unfold splitLines at ih ⊢
    rw [List.splitOnP_cons, cutLines]
    cases hS : List.splitOnP isEOL cs with
    | nil => exact absurd hS (List.splitOnP_ne_nil _ _)
    | cons h t =>
      rw [hS] at ih
      by_cases hc : c = CR ∨ c = LF
      · have hc2 : isEOL c = true := (isEOL_iff c).2 hc
        rw [if_pos hc, ih, if_pos hc2]
        show [] :: (if (h :: t).getLast? = some [] then (h :: t).dropLast else h :: t) =
          if ([] :: h :: t).getLast? = some [] then ([] :: h :: t).dropLast else [] :: h :: t
        rw [List.getLast?_cons_cons]
        by_cases hl : (h :: t).getLast? = some []
        · rw [if_pos hl, if_pos hl]; rfl
        · rw [if_neg hl, if_neg hl]
      · have hc2 : ¬ isEOL c = true := fun h => hc ((isEOL_iff c).1 h)
        rw [if_neg hc, ih, if_neg hc2]
        cases t with
        | nil =>
          by_cases hh : h = []
          · subst hh; simp [List.modifyHead]
          · simp [List.modifyHead, hh]
        | cons t1 t2 =>
          show (match (if (h :: t1 :: t2).getLast? = some [] then (h :: t1 :: t2).dropLast
                  else h :: t1 :: t2) with
                | [] => [[c]]
                | l :: ls => (c :: l) :: ls) =
            if ((c :: h) :: t1 :: t2).getLast? = some [] then ((c :: h) :: t1 :: t2).dropLast
            else (c :: h) :: t1 :: t2
          rw [List.getLast?_cons_cons, List.getLast?_cons_cons]
          by_cases hl : (t1 :: t2).getLast? = some []
          · rw [if_pos hl, if_pos hl]; rfl
          · rw [if_neg hl, if_neg hl]

theorem cstrAt_zero_of_no_NUL (text : List Char) (hN : ∀ c ∈ text, c ≠ NUL) :
    cstrAt text 0 = text := by
  unfold cstrAt
  rw [List.drop_zero, List.takeWhile_eq_self_iff]
  intro c hc
  simpa using hN c hc

theorem pendingLines_start (text : List Char) (hN : ∀ c ∈ text, c ≠ NUL) :
    pendingLines text 0 = splitLines text := by
  unfold pendingLines
  rw [cstrAt_zero_of_no_NUL text hN, cutLines_eq_splitLines]

/-! ## The shape of the log -/

theorem drive_rest_of_nil {σ α : Type} (P : CueParser σ α) (filename : List Char) (s : σ) :
    (drive P filename s []).2.2 = [] := by
  cases hg : P.Get s with
  | mk r p =>
    cases r with
    | some song => simp only [drive, hg]
    | none => simp only [drive, hg, driveLines]

theorem drives_rest_of_nil {σ α : Type} (P : CueParser σ α) (filename : List Char) (n : Nat)
    (s : σ) : (drives P filename n s []).2.2 = [] := by
  induction n generalizing s with
  | zero => rfl
  | succ n ih =>
    have h := drive_rest_of_nil P filename s
    cases hd : drive P filename s [] with
    | mk r sr =>
      obtain ⟨s1, rest⟩ := sr
      rw [hd] at h
      simp only at h
      subst h
      simp only [drives, hd]
      exact ih s1

theorem drives_rest_of_none {σ α : Type} (P : CueParser σ α) (filename : List Char) (n : Nat)
    (s : σ) (lines : List (List Char)) (h : none ∈ (drives P filename n s lines).1) :
    (drives P filename n s lines).2.2 = [] := by
  induction n generalizing s lines with
  | zero => simp [drives] at h
  | succ n ih =>
    cases hd : drive P filename s lines with
    | mk r sr =>
      obtain ⟨s1, rest⟩ := sr
      simp only [drives, hd] at h ⊢
      rcases List.mem_cons.1 h with h0 | h1
      · have hnone : (drive P filename s lines).1 = none := by rw [hd]; exact h0.symm
        have hrest := (drive_none P filename s lines hnone).1
        rw [hd] at hrest
        simp only at hrest
        subst hrest
        exact drives_rest_of_nil P filename n s1
      · exact ih s1 rest h1

/-- One pull with the traced parser keeps the shape of the log. -/
theorem drive_traced_enumerating {σ α : Type} (P : CueParser σ α) (filename : List Char)
    (s : σ) (all : List (List Char)) (log : List ParserCall) (rest : List (List Char))
    (h : Enumerating all log rest) :
    Enumerating all (drive (traced P) filename (s, log) rest).2.1.2
      (drive (traced P) filename (s, log) rest).2.2 := by
  obtain ⟨_, _, d3, hcase⟩ := drive_traced P filename s log rest
  rw [d3]
  rcases hcase with ⟨consumed, _, hcons, hlog, _⟩ | ⟨hrest, hlog, _⟩
  · rw [hlog]
    rcases h with ⟨hno, hfed⟩ | ⟨a, b, hab, ha, hfa, hfb, hr⟩
    · left
      refine ⟨?_, ?_⟩
      · simp [hno, finish_not_mem_feedCalls]
      · rw [feedsOf_append]
        simp only [feedsOf, feedsOf_feedCalls]
        rw [List.append_assoc, hcons]
        exact hfed
    · right
      subst hr
      have hc0 : consumed = [] := (List.append_eq_nil.1 hcons).1
      have hr0 : (drive P filename s []).2.2 = [] := (List.append_eq_nil.1 hcons).2
      refine ⟨a, b ++ [ParserCall.get], ?_, ha, hfa, ?_, hr0⟩
      · rw [hab, hc0]; simp [feedCalls]
      · rw [feedsOf_append, hfb]; rfl
  · rw [hlog, hrest]
    right
    rcases h with ⟨hno, hfed⟩ | ⟨a, b, hab, ha, hfa, hfb, hr⟩
    · refine ⟨log ++ ParserCall.get :: feedCalls rest, [ParserCall.get], ?_, ?_, ?_, rfl, rfl⟩
      · simp
      · simp [hno, finish_not_mem_feedCalls]
      · rw [feedsOf_append]
        simp only [feedsOf, feedsOf_feedCalls]
        exact hfed
    · subst hr
      refine ⟨a, b ++ [ParserCall.get, ParserCall.finish, ParserCall.get], ?_, ha, hfa, ?_, rfl⟩
      · rw [hab]; simp [feedCalls]
      · rw [feedsOf_append, hfb]; rfl

/-- Any number of pulls with the traced parser keeps the shape of the log. -/
theorem drives_traced_enumerating {σ α : Type} (P : CueParser σ α) (filename : List Char)
    (n : Nat) (s : σ) (all : List (List Char)) (log : List ParserCall)
    (rest : List (List Char)) (h : Enumerating all log rest) :
    Enumerating all (drives (traced P) filename n (s, log) rest).2.1.2
      (drives (traced P) filename n (s, log) rest).2.2 := by
  induction n generalizing s log rest with
  | zero => exact h
  | succ n ih =>
    have h1 := drive_traced_enumerating P filename s all log rest h
    cases hd : drive (traced P) filename (s, log) rest with
    | mk r sr =>
      obtain ⟨⟨s1, log1⟩, rest1⟩ := sr
      rw [hd] at h1
      simp only [drives, hd]
      exact ih s1 log1 rest1 h1

theorem Enumerating.feeds_prefix {all : List (List Char)} {log : List ParserCall}
    {rest : List (List Char)} (h : Enumerating all log rest) :
    feedsOf log ++ rest = all := by
  rcases h with ⟨_, hfed⟩ | ⟨a, b, hab, _, hfa, hfb, hr⟩
  · exact hfed
  · rw [hab, hr, feedsOf_append]
    simp [feedsOf, hfa, hfb]

/-! ## Separators and empty lines -/

theorem joinLines_no_NUL (lines : List (List Char)) (seps : Nat → Separator)
    (hL : ∀ l ∈ lines, ∀ c ∈ l, c ≠ NUL ∧ c ≠ CR ∧ c ≠ LF) :
    ∀ c ∈ joinLines lines seps, c ≠ NUL := by
  induction lines generalizing seps with
  | nil => simp [joinLines]
  | cons l ls ih =>
    cases ls with
    | nil =>
      intro c hc
      exact (hL l (List.mem_cons_self _ _) c hc).1
    | cons l2 ls2 =>
      intro c hc
      simp only [joinLines, List.mem_append] at hc
      rcases hc with (hc | hc) | hc
      · exact (hL l (List.mem_cons_self _ _) c hc).1
      · cases hs : seps 0 <;> rw [hs] at hc <;> simp [Separator.chars] at hc
        · rw [hc]; decide
        · rw [hc]; decide
        · rcases hc with hc | hc <;> rw [hc] <;> decide
      · exact ih (fun i => seps (i + 1)) (fun x hx => hL x (List.mem_cons_of_mem _ hx)) c hc

theorem cutLines_joinLines (lines : List (List Char)) (seps : Nat → Separator)
    (hL : ∀ l ∈ lines, ∀ c ∈ l, c ≠ NUL ∧ c ≠ CR ∧ c ≠ LF) :
    (cutLines (joinLines lines seps)).filter (fun l => !l.isEmpty) =
      lines.filter (fun l => !l.isEmpty) := by
  induction lines generalizing seps with
  | nil => simp [joinLines, cutLines]
  | cons l ls ih =>
    have hl : ∀ c ∈ l, ¬ (c = CR ∨ c = LF) := fun c hc h =>
      h.elim (hL l (List.mem_cons_self _ _) c hc).2.1 (hL l (List.mem_cons_self _ _) c hc).2.2
    cases ls with
    | nil =>
      by_cases hne : l = []
      · subst hne; simp [joinLines, cutLines]
      · simp only [joinLines]
        rw [cutLines_no_eol l hne hl]
    | cons l2 ls2 =>
      have ih2 := ih (fun i => seps (i + 1)) (fun x hx => hL x (List.mem_cons_of_mem _ hx))
      simp only [joinLines]
      have hcons : ∀ A B : List (List Char),
          A.filter (fun l => !l.isEmpty) = B.filter (fun l => !l.isEmpty) →
            (l :: A).filter (fun l => !l.isEmpty) = (l :: B).filter (fun l => !l.isEmpty) := by
        intro A B h
        simp only [List.filter_cons, h]
      have hnil : ∀ A : List (List Char),
          (([] : List Char) :: A).filter (fun l => !l.isEmpty) =
            A.filter (fun l => !l.isEmpty) := by
        intro A; simp
      cases hs : seps 0 with
      | cr =>
        simp only [Separator.chars, List.append_assoc, List.singleton_append]
        rw [cutLines_append_eol l CR _ hl (Or.inl rfl)]
        exact hcons _ _ ih2
      | lf =>
        simp only [Separator.chars, List.append_assoc, List.singleton_append]
        rw [cutLines_append_eol l LF _ hl (Or.inr rfl)]
        exact hcons _ _ ih2
      | crlf =>
        simp only [Separator.chars, List.append_assoc, List.cons_append, List.nil_append]
        rw [cutLines_append_eol l CR _ hl (Or.inl rfl)]
        have hlf : ∀ r : List Char, cutLines (LF :: r) = [] :: cutLines r := fun r =>
          cutLines_append_eol [] LF r (by simp) (Or.inr rfl)
        rw [hlf]
        exact hcons _ _ ((hnil _).trans ih2)

theorem driveLines_filter {σ α : Type} (P : CueParser σ α) (hI : IgnoresEmptyLines P)
    (filename : List Char) (q : σ) (hq : ∃ s, P.Get s = (none, q))
    (lines : List (List Char)) :
    (driveLines P filename q (lines.filter (fun l => !l.isEmpty))).1 =
        (driveLines P filename q lines).1 ∧
      (driveLines P filename q (lines.filter (fun l => !l.isEmpty))).2.1 =
        (driveLines P filename q lines).2.1 ∧
      (driveLines P filename q (lines.filter (fun l => !l.isEmpty))).2.2 =
        (driveLines P filename q lines).2.2.filter (fun l => !l.isEmpty) := by
  induction lines generalizing q with
  | nil => exact ⟨rfl, rfl, rfl⟩
  | cons l ls ih =>
    by_cases hl : l = []
    · subst hl
      obtain ⟨s, hs⟩ := hq
      have h1 : P.Get (P.Feed q []) = (none, q) := by
        have := hI s (by rw [hs])
        rw [hs] at this
        exact this
      have hf : ([] :: ls).filter (fun l : List Char => !l.isEmpty) =
          ls.filter (fun l => !l.isEmpty) := by simp
      rw [hf]
      simp only [driveLines, h1]
      exact ih q ⟨s, hs⟩
    · have hf : (l :: ls).filter (fun l : List Char => !l.isEmpty) =
          l :: ls.filter (fun l => !l.isEmpty) := by
        simp [List.filter_cons, hl]
      rw [hf]
      cases hg : P.Get (P.Feed q l) with
      | mk r p =>
        cases r with
        | some song =>
          simp only [driveLines, hg]
          exact ⟨trivial, trivial, trivial⟩
        | none =>
          simp only [driveLines, hg]
          exact ih p ⟨P.Feed q l, hg⟩

theorem drive_filter {σ α : Type} (P : CueParser σ α) (hI : IgnoresEmptyLines P)
    (filename : List Char) (s : σ) (lines : List (List Char)) :
    (drive P filename s (lines.filter (fun l => !l.isEmpty))).1 =
        (drive P filename s lines).1 ∧
      (drive P filename s (lines.filter (fun l => !l.isEmpty))).2.1 =
        (drive P filename s lines).2.1 ∧
      (drive P filename s (lines.filter (fun l => !l.isEmpty))).2.2 =
        (drive P filename s lines).2.2.filter (fun l => !l.isEmpty) := by
  cases hg : P.Get s with
  | mk r p =>
    cases r with
    | some song =>
      simp only [drive, hg]
      exact ⟨trivial, trivial, trivial⟩
    | none =>
      obtain ⟨h1, h2, h3⟩ := driveLines_filter P hI filename p ⟨s, hg⟩ lines
      cases hd : driveLines P filename p lines with
      | mk r2 sr =>
        obtain ⟨s2, rest⟩ := sr
        cases hdf : driveLines P filename p (lines.filter (fun l => !l.isEmpty)) with
        | mk r2f srf =>
          obtain ⟨s2f, restf⟩ := srf
          simp only [hd, hdf] at h1 h2 h3
          subst h1 h2 h3
          cases r2f with
          | some song =>
            simp only [drive, hg, hd, hdf]
            exact ⟨trivial, trivial, trivial⟩
          | none =>
            simp only [drive, hg, hd, hdf]
            exact ⟨trivial, trivial, trivial⟩

theorem drives_filter {σ α : Type} (P : CueParser σ α) (hI : IgnoresEmptyLines P)
    (filename : List Char) (n : Nat) (s : σ) (lines : List (List Char)) :
    (drives P filename n s (lines.filter (fun l => !l.isEmpty))).1 =
        (drives P filename n s lines).1 ∧
      (drives P filename n s (lines.filter (fun l => !l.isEmpty))).2.1 =
        (drives P filename n s lines).2.1 := by
  induction n generalizing s lines with
  | zero => exact ⟨rfl, rfl⟩
  | succ n ih =>
    obtain ⟨h1, h2, h3⟩ := drive_filter P hI filename s lines
    cases hd : drive P filename s lines with
    | mk r sr =>
      obtain ⟨s1, rest⟩ := sr
      cases hdf : drive P filename s (lines.filter (fun l => !l.isEmpty)) with
      | mk rf srf =>
        obtain ⟨s1f, restf⟩ := srf
        simp only [hd, hdf] at h1 h2 h3
        subst h1 h2 h3
        obtain ⟨k1, k2⟩ := ih s1f rest
        simp only [drives, hd, hdf]
        exact ⟨by rw [k1], k2⟩

theorem drives_uri {σ α : Type} (P : CueParser σ α) (filename : List Char) (n : Nat) (s : σ)
    (lines : List (List Char)) (song : DetachedSong α)
    (h : some song ∈ (drives P filename n s lines).1) : song.uri = filename := by
  induction n generalizing s lines with
  | zero => simp [drives] at h
  | succ n ih =>
    cases hd : drive P filename s lines with
    | mk r sr =>
      obtain ⟨s1, rest⟩ := sr
      simp only [drives, hd] at h
      rcases List.mem_cons.1 h with h0 | h1
      · obtain ⟨_, song0, _, hs⟩ := drive_some P filename s lines song (by rw [hd]; exact h0.symm)
        rw [hs]; rfl
      · exact ih s1 rest h1

/-- The log of `n` successive `NextSong` calls from offset 0 of a text without NUL,
with the traced parser: the calls return, the log and the lines still to feed have the
shape `Enumerating` over the lines of the text, and no line is left once a call has
returned null. -/
theorem NextSongs_traced_log {σ α : Type} (P : CueParser σ α) (s0 : σ)
    (filename text : List Char) (n : Nat) (hN : ∀ c ∈ text, c ≠ NUL) :
    ∃ rs pl1, NextSongs (traced P) n ⟨filename, text, 0, (s0, [])⟩ = some (rs, pl1) ∧
      Enumerating (splitLines text) pl1.parser.2 (pendingLines pl1.cuesheet pl1.next) ∧
      (none ∈ rs → pendingLines pl1.cuesheet pl1.next = []) := by
  obtain ⟨pl1, h1, h2, h3, _⟩ := NextSongs_refines (traced P) n ⟨filename, text, 0, (s0, [])⟩
  simp only [pendingLines_start text hN] at h1 h2 h3
  have hE := drives_traced_enumerating P filename n s0 (splitLines text) [] (splitLines text)
    (Or.inl ⟨by simp, by simp [feedsOf]⟩)
  refine ⟨_, pl1, h1, by rw [h2, h3]; exact hE, ?_⟩
  intro hnone
  rw [h3]
  exact drives_rest_of_none (traced P) filename n (s0, []) (splitLines text) hnone

/-! ## The final line -/

theorem cutLines_ne_nil (text : List Char) (hne : text ≠ []) : cutLines text ≠ [] := by
  cases text with
  | nil => exact absurd rfl hne
  | cons c cs =>
    unfold cutLines
    by_cases hc : c = CR ∨ c = LF
    · rw [if_pos hc]; exact List.cons_ne_nil _ _
    · rw [if_neg hc]
      cases cutLines cs <;> exact List.cons_ne_nil _ _

theorem cutLines_append_sep (a : List Char) (d : Char) (r : List Char)
    (hd : d = CR ∨ d = LF) :
    cutLines (a ++ d :: r) = cutLines (a ++ [d]) ++ cutLines r := by
  induction a with
  | nil =>
    show cutLines (d :: r) = cutLines [d] ++ cutLines r
    simp [cutLines, hd]
  | cons c cs ih =>
    rw [List.cons_append, List.cons_append, cutLines, cutLines, ih]
    by_cases hc : c = CR ∨ c = LF
    · rw [if_pos hc, if_pos hc]; rfl
    · rw [if_neg hc, if_neg hc]
      cases hx : cutLines (cs ++ [d]) with
      | nil => exact absurd hx (cutLines_ne_nil _ (by simp))
      | cons x xs => rfl

theorem rdropWhile_append_rtakeWhile {β : Type} (p : β → Bool) (l : List β) :
    l.rdropWhile p ++ l.rtakeWhile p = l := by
  have h := congrArg List.reverse (List.takeWhile_append_dropWhile p l.reverse)
  rw [List.reverse_append, List.reverse_reverse] at h
  exact h

/-- The last line of a non-empty text that does not end in CR or LF is its undelimited
final line, and that line is not empty. -/
theorem splitLines_final (text : List Char) (hne : text ≠ [])
    (hlast : ∀ c, text.getLast? = some c → c ≠ CR ∧ c ≠ LF) :
    finalLine text ≠ [] ∧ (splitLines text).getLast? = some (finalLine text) := by
  have hfin : finalLine text ≠ [] := by
    intro h
    unfold finalLine at h
    have h2 := (List.rtakeWhile_eq_nil_iff.1 h) hne
    have h3 := hlast _ (List.getLast?_eq_getLast _ hne)
    apply h2
    simp [isEOL, h3.1, h3.2]
  have hfree : ∀ c ∈ finalLine text, ¬ (c = CR ∨ c = LF) := by
    intro c hc h
    have := List.mem_rtakeWhile_imp hc
    simp [isEOL] at this
    exact h.elim this.1 this.2
  refine ⟨hfin, ?_⟩
  have hsplit : List.rdropWhile (fun c => !isEOL c) text ++ finalLine text = text :=
    rdropWhile_append_rtakeWhile _ text
  rw [← cutLines_eq_splitLines]
  by_cases ha : List.rdropWhile (fun c => !isEOL c) text = []
  · rw [ha, List.nil_append] at hsplit
    have e : cutLines (finalLine text) = [finalLine text] := cutLines_no_eol _ hfin hfree
    rw [hsplit] at e
    rw [e, hsplit]
    rfl
  · have hd := List.rdropWhile_last_not (fun c => !isEOL c) text ha
    have hd2 : (List.rdropWhile (fun c => !isEOL c) text).getLast ha = CR ∨
        (List.rdropWhile (fun c => !isEOL c) text).getLast ha = LF := by
      have : isEOL ((List.rdropWhile (fun c => !isEOL c) text).getLast ha) = true := by
        simpa using hd
      exact (isEOL_iff _).1 this
    have hdec := List.dropLast_append_getLast ha
    conv_lhs => rw [← hsplit, ← hdec, List.append_assoc, List.singleton_append]
    rw [cutLines_append_sep _ _ _ hd2, cutLines_no_eol _ hfin hfree]
    simp

/-- The parser calls of one `NextSong` call, from any state: either a drain before the
end of the text yields the song returned and `Finish` is not sent, or the calls end
with `Finish` and one drain, whose result is returned with its location set to
`filename`. -/
theorem NextSong_traced_calls {σ α : Type} (P : CueParser σ α)
    (pl : EmbeddedCuePlaylist (σ × List ParserCall)) :
    ∃ r pl1 calls, NextSong (traced P) pl = some (r, pl1) ∧
      pl1.parser.2 = pl.parser.2 ++ calls ∧
      ((ParserCall.finish ∉ calls ∧ ∃ song, r = some song) ∨
        (∃ pre q, calls = pre ++ [ParserCall.finish, ParserCall.get] ∧
          ParserCall.finish ∉ pre ∧
          r = (P.Get (P.Finish q)).1.map (fun song => song.SetURI pl.filename) ∧
          pl1.parser.1 = (P.Get (P.Finish q)).2)) := by
  obtain ⟨pl1, h1, h2, _⟩ := NextSong_refines (traced P) pl
  rcases hpar : pl.parser with ⟨s, log⟩
  rw [hpar] at h1 h2
  obtain ⟨d1, d2, _, hcase⟩ :=
    drive_traced P pl.filename s log (pendingLines pl.cuesheet pl.next)
  refine ⟨(drive (traced P) pl.filename (s, log) (pendingLines pl.cuesheet pl.next)).1,
    pl1, ?_⟩
  rcases hcase with ⟨consumed, song, _, hlog, hsong⟩ | ⟨_, hlog, q, hq1, hq2⟩
  · refine ⟨ParserCall.get :: feedCalls consumed, h1, by rw [h2, hlog], Or.inl ⟨?_, song, ?_⟩⟩
    · simp [finish_not_mem_feedCalls]
    · rw [d1, hsong]
  · refine ⟨_, h1, by rw [h2, hlog], Or.inr
      ⟨ParserCall.get :: feedCalls (pendingLines pl.cuesheet pl.next), q, rfl, ?_, ?_, ?_⟩⟩
    · simp [finish_not_mem_feedCalls]
    · rw [d1, hq1]
    · rw [h2, d2, hq2]

/-! ## The tag handler and the two scans -/

theorem isEmpty_eq_true_iff_nil {β : Type} (l : List β) : l.isEmpty = true ↔ l = [] := by
  cases l <;> simp

theorem OnPair_of_nonempty (h : ExtractCuesheetTagHandler) (name value : List Char)
    (hne : h.cuesheet ≠ []) : h.OnPair name value = h := by
  unfold ExtractCuesheetTagHandler.OnPair
  have : h.cuesheet.isEmpty = false := by
    cases hc : h.cuesheet with
    | nil => exact absurd hc hne
    | cons c cs => rfl
  simp [this]

theorem OnPair_of_other_key (h : ExtractCuesheetTagHandler) (name value : List Char)
    (hkey : StringEqualsCaseASCII name "cuesheet".toList = false) : h.OnPair name value = h := by
  unfold ExtractCuesheetTagHandler.OnPair
  rw [hkey]
  simp

theorem deliverPairs_of_nonempty (h : ExtractCuesheetTagHandler)
    (pairs : List (List Char × List Char)) (hne : h.cuesheet ≠ []) :
    deliverPairs h pairs = h := by
  induction pairs with
  | nil => rfl
  | cons kv ps ih =>
    show deliverPairs (h.OnPair kv.1 kv.2) ps = h
    rw [OnPair_of_nonempty h _ _ hne]
    exact ih

theorem deliverPairs_fresh (pairs : List (List Char × List Char)) :
    deliverPairs { cuesheet := [] } pairs = { cuesheet := firstCuesheet pairs } := by
  induction pairs with
  | nil => rfl
  | cons kv ps ih =>
    show deliverPairs (ExtractCuesheetTagHandler.OnPair { cuesheet := [] } kv.1 kv.2) ps = _
    by_cases hkey : StringEqualsCaseASCII kv.1 "cuesheet".toList = true
    · by_cases hval : kv.2 = []
      · have h1 : ExtractCuesheetTagHandler.OnPair { cuesheet := [] } kv.1 kv.2 =
            { cuesheet := [] } := by
          unfold ExtractCuesheetTagHandler.OnPair
          rw [hkey, hval]
          rfl
        have h2 : isCuesheetPair kv = false := by
          unfold isCuesheetPair
          rw [hkey, hval]
          rfl
        rw [h1, ih]
        simp [firstCuesheet, List.find?_cons, h2]
      · have h1 : ExtractCuesheetTagHandler.OnPair { cuesheet := [] } kv.1 kv.2 =
            { cuesheet := kv.2 } := by
          unfold ExtractCuesheetTagHandler.OnPair
          rw [hkey]
          rfl
        have h2 : isCuesheetPair kv = true := by
          unfold isCuesheetPair
          rw [hkey]
          cases hv : kv.2 with
          | nil => exact absurd hv hval
          | cons c cs => rfl
        rw [h1, deliverPairs_of_nonempty _ _ hval]
        simp [firstCuesheet, List.find?_cons, h2]
    · have hkey2 : StringEqualsCaseASCII kv.1 "cuesheet".toList = false := by
        simpa using hkey
      have h2 : isCuesheetPair kv = false := by
        unfold isCuesheetPair
        rw [hkey2]
        rfl
      rw [OnPair_of_other_key _ _ _ hkey2, ih]
      simp [firstCuesheet, List.find?_cons, h2]

theorem firstCuesheet_of_none (pairs : List (List Char × List Char))
    (hno : ∀ kv ∈ pairs, isCuesheetPair kv = false) : firstCuesheet pairs = [] := by
  have : pairs.find? isCuesheetPair = none := by
    rw [List.find?_eq_none]
    intro kv hkv
    simp [hno kv hkv]
  simp [firstCuesheet, this]

theorem firstCuesheet_of_some (pairs : List (List Char × List Char))
    (hyes : ∃ kv ∈ pairs, isCuesheetPair kv = true) : firstCuesheet pairs ≠ [] := by
  cases hf : pairs.find? isCuesheetPair with
  | none =>
    obtain ⟨kv, hkv, hk⟩ := hyes
    rw [List.find?_eq_none] at hf
    exact absurd hk (hf kv hkv)
  | some kv =>
    have hk := List.find?_some hf
    simp only [firstCuesheet, hf, Option.map_some', Option.getD_some]
    intro h0
    unfold isCuesheetPair at hk
    rw [h0] at hk
    simp at hk

theorem open_uri_of_native {ω ε Path σ : Type} (E : Collaborators ω ε Path σ)
    (uri : List Char) (w w1 : ω) (path : Path) (pairs : List (List Char × List Char))
    (habs : E.IsAbsolute uri = true) (hconv : E.FromUTF8Throw uri = Except.ok path)
    (hscan : E.ScanFileTagsNoGeneric path w = Except.ok (pairs, w1))
    (hne : firstCuesheet pairs ≠ []) :
    embcue_playlist_open_uri E uri w =
      Except.ok
        (some { filename := E.GetBase uri, cuesheet := firstCuesheet pairs, next := 0,
                parser := (E.NewCueParser w1).1 },
          (E.NewCueParser w1).2) := by
  have hemp : (firstCuesheet pairs).isEmpty = false := by
    cases hc : firstCuesheet pairs with
    | nil => exact absurd hc hne
    | cons c cs => rfl
  simp only [embcue_playlist_open_uri, habs, hconv, hscan, deliverPairs_fresh, hemp,
    Bool.not_true, Bool.false_eq_true, if_false]

theorem open_uri_of_generic {ω ε Path σ : Type} (E : Collaborators ω ε Path σ)
    (uri : List Char) (w w1 w2 : ω) (path : Path)
    (pairs pairs2 : List (List Char × List Char))
    (habs : E.IsAbsolute uri = true) (hconv : E.FromUTF8Throw uri = Except.ok path)
    (hscan : E.ScanFileTagsNoGeneric path w = Except.ok (pairs, w1))
    (hno : firstCuesheet pairs = [])
    (hscan2 : E.ScanGenericTags path w1 = Except.ok (pairs2, w2)) :
    embcue_playlist_open_uri E uri w =
      if firstCuesheet pairs2 = [] then Except.ok (none, w2)
      else
        Except.ok
          (some { filename := E.GetBase uri, cuesheet := firstCuesheet pairs2, next := 0,
                  parser := (E.NewCueParser w2).1 },
            (E.NewCueParser w2).2) := by
  have hfresh : deliverPairs { cuesheet := [] } pairs = { cuesheet := [] } := by
    rw [deliverPairs_fresh, hno]
  by_cases h2 : firstCuesheet pairs2 = []
  · simp [embcue_playlist_open_uri, habs, hconv, hscan, hscan2, hfresh, deliverPairs_fresh, h2]
  · have hemp : (firstCuesheet pairs2).isEmpty = false := by
      cases hc : firstCuesheet pairs2 with
      | nil => exact absurd hc h2
      | cons c cs => rfl
    simp [embcue_playlist_open_uri, habs, hconv, hscan, hscan2, hfresh, deliverPairs_fresh,
      h2, hemp]

theorem open_uri_of_relative {ω ε Path σ : Type} (E : Collaborators ω ε Path σ)
    (uri : List Char) (w : ω) (habs : E.IsAbsolute uri = false) :
    embcue_playlist_open_uri E uri w = Except.ok (none, w) := by
  simp [embcue_playlist_open_uri, habs]

theorem open_uri_of_conversion_error {ω ε Path σ : Type} (E : Collaborators ω ε Path σ)
    (uri : List Char) (w : ω) (e : ε)
    (habs : E.IsAbsolute uri = true) (hconv : E.FromUTF8Throw uri = Except.error e) :
    embcue_playlist_open_uri E uri w = Except.error e := by
  simp [embcue_playlist_open_uri, habs, hconv]

theorem open_uri_of_native_error {ω ε Path σ : Type} (E : Collaborators ω ε Path σ)
    (uri : List Char) (w : ω) (path : Path) (e : ε)
    (habs : E.IsAbsolute uri = true) (hconv : E.FromUTF8Throw uri = Except.ok path)
    (hscan : E.ScanFileTagsNoGeneric path w = Except.error e) :
    embcue_playlist_open_uri E uri w = Except.error e := by
  simp [embcue_playlist_open_uri, habs, hconv, hscan]

theorem open_uri_of_generic_error {ω ε Path σ : Type} (E : Collaborators ω ε Path σ)
    (uri : List Char) (w w1 : ω) (path : Path) (pairs : List (List Char × List Char))
    (e : ε)
    (habs : E.IsAbsolute uri = true) (hconv : E.FromUTF8Throw uri = Except.ok path)
    (hscan : E.ScanFileTagsNoGeneric path w = Except.ok (pairs, w1))
    (hno : firstCuesheet pairs = [])
    (hscan2 : E.ScanGenericTags path w1 = Except.error e) :
    embcue_playlist_open_uri E uri w = Except.error e := by
  have hfresh : deliverPairs { cuesheet := [] } pairs = { cuesheet := [] } := by
    rw [deliverPairs_fresh, hno]
  simp [embcue_playlist_open_uri, habs, hconv, hscan, hscan2, hfresh]

theorem open_uri_some {ω ε Path σ : Type} (E : Collaborators ω ε Path σ)
    (uri : List Char) (w w1 : ω) (pl : EmbeddedCuePlaylist σ)
    (h : embcue_playlist_open_uri E uri w = Except.ok (some pl, w1)) :
    E.IsAbsolute uri = true ∧ pl.filename = E.GetBase uri ∧ pl.next = 0 ∧
      pl.cuesheet ≠ [] := by
  cases habs : E.IsAbsolute uri with
  | false =>
    rw [open_uri_of_relative E uri w habs] at h
    simp at h
  | true =>
    cases hconv : E.FromUTF8Throw uri with
    | error e =>
      rw [open_uri_of_conversion_error E uri w e habs hconv] at h
      exact Except.noConfusion h
    | ok path =>
      cases hscan : E.ScanFileTagsNoGeneric path w with
      | error e =>
        rw [open_uri_of_native_error E uri w path e habs hconv hscan] at h
        exact Except.noConfusion h
      | ok res =>
        obtain ⟨pairs, wA⟩ := res
        by_cases hfirst : firstCuesheet pairs = []
        · cases hscan2 : E.ScanGenericTags path wA with
          | error e =>
            rw [open_uri_of_generic_error E uri w wA path pairs e habs hconv hscan hfirst
              hscan2] at h
            exact Except.noConfusion h
          | ok res2 =>
            obtain ⟨pairs2, wB⟩ := res2
            rw [open_uri_of_generic E uri w wA wB path pairs pairs2 habs hconv hscan hfirst
              hscan2] at h
            by_cases hsecond : firstCuesheet pairs2 = []
            · rw [if_pos hsecond] at h
              simp at h
            · rw [if_neg hsecond] at h
              simp only [Except.ok.injEq, Prod.mk.injEq, Option.some.injEq] at h
              obtain ⟨hpl, _⟩ := h
              subst hpl
              exact ⟨rfl, rfl, rfl, hsecond⟩
        · rw [open_uri_of_native E uri w wA path pairs habs hconv hscan hfirst] at h
          simp only [Except.ok.injEq, Prod.mk.injEq, Option.some.injEq] at h
          obtain ⟨hpl, _⟩ := h
          subst hpl
          exact ⟨rfl, rfl, rfl, hfirst⟩

theorem NextSongs_uri {σ α : Type} (P : CueParser σ α) (n : Nat)
    (pl : EmbeddedCuePlaylist σ) :
    ∃ rs pl1, NextSongs P n pl = some (rs, pl1) ∧
      ∀ song, some song ∈ rs → song.uri = pl.filename := by
  obtain ⟨pl1, h1, _⟩ := NextSongs_refines P n pl
  exact ⟨_, pl1, h1, fun song hs => drives_uri P pl.filename n pl.parser _ song hs⟩

/-! ## Further facts on the log and on the cursor -/

theorem cutLines_length_le (text : List Char) : (cutLines text).length ≤ text.length := by
  induction text with
  | nil => simp [cutLines]
  | cons c cs ih =>
    unfold cutLines
    by_cases hc : c = CR ∨ c = LF
    · rw [if_pos hc]
      simp only [List.length_cons]
      omega
    · rw [if_neg hc]
      cases hx : cutLines cs with
      | nil => simp
      | cons l ls =>
        rw [hx] at ih
        simp only [List.length_cons] at ih ⊢
        omega

theorem pendingLines_length_le (buf : List Char) (next : Nat) :
    (pendingLines buf next).length ≤ buf.length - next := by
  unfold pendingLines
  have h1 := cutLines_length_le (cstrAt buf next)
  have h2 : (cstrAt buf next).length ≤ (buf.drop next).length := by
    unfold cstrAt
    exact length_takeWhile_le_length _ _
  rw [List.length_drop] at h2
  omega

theorem feedsOf_nil_of_suffix (c b : List ParserCall) (h : feedsOf (c ++ b) = []) :
    feedsOf c = [] ∧ feedsOf b = [] := by
  rw [feedsOf_append] at h
  exact List.append_eq_nil.1 h

/-- A log of the shape `Enumerating`, cut at any of its `Finish` calls: what follows
feeds nothing and what precedes feeds all the lines. -/
theorem Enumerating.cut_at_finish {all : List (List Char)} {log : List ParserCall}
    {rest : List (List Char)} (h : Enumerating all log rest) (a b : List ParserCall)
    (hab : log = a ++ ParserCall.finish :: b) :
    feedsOf b = [] ∧ feedsOf a = all := by
  rcases h with ⟨hno, _⟩ | ⟨a0, b0, h0, ha0, hfa, hfb, _⟩
  · exact absurd (by rw [hab]; simp) hno
  · rw [hab] at h0
    rcases List.append_eq_append_iff.1 h0 with ⟨c, h1, h2⟩ | ⟨c, h1, h2⟩
    · cases c with
      | nil =>
        simp only [List.nil_append, List.cons.injEq, true_and] at h2
        rw [List.append_nil] at h1
        rw [h2, ← h1]
        exact ⟨hfb, hfa⟩
      | cons x c2 =>
        simp only [List.cons_append, List.cons.injEq] at h2
        exfalso
        apply ha0
        rw [h1, ← h2.1]
        simp
    · cases c with
      | nil =>
        simp only [List.nil_append, List.cons.injEq, true_and] at h2
        rw [List.append_nil] at h1
        rw [← h2, h1]
        exact ⟨hfb, hfa⟩
      | cons x c2 =>
        simp only [List.cons_append, List.cons.injEq] at h2
        obtain ⟨hx, hb0⟩ := h2
        rw [hb0] at hfb
        obtain ⟨hc2, hrest⟩ := feedsOf_nil_of_suffix c2 (ParserCall.finish :: b) hfb
        refine ⟨by simpa [feedsOf] using hrest, ?_⟩
        rw [h1, feedsOf_append, hfa, ← hx]
        simp [feedsOf, hc2]

theorem DelimitersCleared.same (buf : List Char) (lo hi : Nat) :
    DelimitersCleared buf buf lo hi :=
  ⟨rfl, fun _ h => absurd rfl h⟩

theorem DelimitersCleared.then {old mid new : List Char} {lo md hi : Nat}
    (h1 : DelimitersCleared old mid lo md) (h2 : DelimitersCleared mid new md hi)
    (hlo : lo ≤ md) (hhi : md ≤ hi) : DelimitersCleared old new lo hi := by
  refine ⟨h2.1.trans h1.1, fun i hi2 => ?_⟩
  by_cases hab : mid[i]? = old[i]?
  · have hcb : new[i]? ≠ mid[i]? := by rw [hab]; exact hi2
    obtain ⟨k1, k2, k3, k4⟩ := h2.2 i hcb
    rw [hab] at k3
    exact ⟨Nat.le_trans hlo k1, k2, k3, k4⟩
  · obtain ⟨k1, k2, k3, k4⟩ := h1.2 i hab
    have hcb : new[i]? = mid[i]? := by
      by_contra hne
      obtain ⟨_, _, j3, _⟩ := h2.2 i hne
      rw [k4] at j3
      rcases j3 with j3 | j3
      · exact absurd (Option.some.inj j3) (by decide)
      · exact absurd (Option.some.inj j3) (by decide)
    exact ⟨k1, Nat.lt_of_lt_of_le k2 hhi, k3, by rw [hcb, k4]⟩

theorem DelimitersCleared.drop_eq {old new : List Char} {lo hi : Nat}
    (h : DelimitersCleared old new lo hi) : new.drop hi = old.drop hi := by
  apply List.ext_getElem?
  intro k
  rw [List.getElem?_drop, List.getElem?_drop]
  by_contra hne
  obtain ⟨_, h2, _⟩ := h.2 (hi + k) hne
  omega

theorem takeLine_cleared (buf : List Char) (next : Nat) :
    DelimitersCleared buf (takeLine buf next).1 next (takeLine buf next).2 := by
  unfold takeLine
  cases hs : strpbrk buf next with
  | none => exact DelimitersCleared.same buf _ _
  | some eol =>
    obtain ⟨pre, d, post, hl, he, hd, _, _⟩ := strpbrkFrom_some hs
    have hold : buf[eol]? = some d := by
      have h1 : (buf.drop next)[pre.length]? = some d := by
        rw [hl, List.getElem?_append_right (Nat.le_refl _)]
        simp
      rw [List.getElem?_drop] at h1
      rw [he]
      exact h1
    have hlt : eol < buf.length := by
      by_contra hge
      rw [List.getElem?_eq_none (Nat.le_of_not_lt hge)] at hold
      exact Option.noConfusion hold
    refine ⟨List.length_set _ _ _, fun i hne => ?_⟩
    have hi : eol = i := by
      by_contra hni
      exact hne (List.getElem?_set_ne hni)
    subst hi
    refine ⟨by omega, Nat.lt_succ_self _, ?_, List.getElem?_set_self hlt⟩
    rcases hd with hd | hd
    · exact Or.inl (by rw [hold, hd])
    · exact Or.inr (by rw [hold, hd])

theorem NextSongLoop_cursor {σ α : Type} (P : CueParser σ α) (fuel : Nat)
    (pl pl1 : EmbeddedCuePlaylist σ) (r : Option (DetachedSong α))
    (h : NextSongLoop P fuel pl = some (r, pl1)) :
    pl.next ≤ pl1.next ∧
      DelimitersCleared pl.cuesheet pl1.cuesheet pl.next pl1.next ∧
      ∃ k, (pl1.cuesheet, pl1.next) = takeLines k (pl.cuesheet, pl.next) ∧
        (pendingLines pl1.cuesheet pl1.next).length + k =
          (pendingLines pl.cuesheet pl.next).length := by
  induction fuel generalizing pl with
  | zero =>
    by_cases h0 : charAt pl.cuesheet pl.next = NUL
    · simp only [NextSongLoop, h0, if_true, Option.some.injEq, Prod.mk.injEq] at h
      obtain ⟨_, hpl⟩ := h
      subst hpl
      exact ⟨Nat.le_refl _, DelimitersCleared.same _ _ _, 0, rfl, rfl⟩
    · simp [NextSongLoop, h0] at h
  | succ fuel ih =>
    by_cases h0 : charAt pl.cuesheet pl.next = NUL
    · simp only [NextSongLoop, h0, if_true, Option.some.injEq, Prod.mk.injEq] at h
      obtain ⟨_, hpl⟩ := h
      subst hpl
      exact ⟨Nat.le_refl _, DelimitersCleared.same _ _ _, 0, rfl, rfl⟩
    · obtain ⟨hlines, _, hlt, _⟩ := takeLine_spec pl.cuesheet pl.next h0
      have hcl := takeLine_cleared pl.cuesheet pl.next
      have hlen : (pendingLines pl.cuesheet pl.next).length =
          (pendingLines (takeLine pl.cuesheet pl.next).1 (takeLine pl.cuesheet pl.next).2).length
            + 1 := by
        rw [hlines]; rfl
      cases hg : P.Get (P.Feed pl.parser (cstrAt (takeLine pl.cuesheet pl.next).1 pl.next)) with
      | mk r2 p =>
        cases r2 with
        | some song =>
          simp only [NextSongLoop, h0, if_false, hg, Option.some.injEq, Prod.mk.injEq] at h
          obtain ⟨_, hpl⟩ := h
          subst hpl
          exact ⟨Nat.le_of_lt hlt, hcl, 1, rfl, hlen.symm⟩
        | none =>
          simp only [NextSongLoop, h0, if_false, hg] at h
          obtain ⟨k1, k2, k, k3, k4⟩ := ih _ h
          simp only at k1 k2 k3 k4
          refine ⟨Nat.le_trans (Nat.le_of_lt hlt) k1,
            hcl.then k2 (Nat.le_of_lt hlt) k1, k + 1, ?_, ?_⟩
          · rw [k3]; rfl
          · omega

theorem NextSong_cursor {σ α : Type} (P : CueParser σ α)
    (pl pl1 : EmbeddedCuePlaylist σ) (r : Option (DetachedSong α))
    (h : NextSong P pl = some (r, pl1)) :
    pl.next ≤ pl1.next ∧
      DelimitersCleared pl.cuesheet pl1.cuesheet pl.next pl1.next ∧
      ∃ k, (pl1.cuesheet, pl1.next) = takeLines k (pl.cuesheet, pl.next) ∧
        (pendingLines pl1.cuesheet pl1.next).length + k =
          (pendingLines pl.cuesheet pl.next).length := by
  unfold NextSong at h
  cases hg : P.Get pl.parser with
  | mk r0 p =>
    cases r0 with
    | some song =>
      simp only [hg, Option.some.injEq, Prod.mk.injEq] at h
      obtain ⟨_, hpl⟩ := h
      subst hpl
      exact ⟨Nat.le_refl _, DelimitersCleared.same _ _ _, 0, rfl, rfl⟩
    | none =>
      simp only [hg] at h
      cases hl : NextSongLoop P (pl.cuesheet.length - pl.next) { pl with parser := p } with
      | none => simp [hl] at h
      | some res =>
        obtain ⟨r2, pl2⟩ := res
        have hc := NextSongLoop_cursor P _ _ pl2 r2 hl
        simp only at hc
        cases r2 with
        | some song =>
          simp only [hl, Option.some.injEq, Prod.mk.injEq] at h
          obtain ⟨_, hpl⟩ := h
          subst hpl
          exact hc
        | none =>
          simp only [hl, Option.some.injEq, Prod.mk.injEq] at h
          obtain ⟨_, hpl⟩ := h
          subst hpl
          exact hc

theorem driveLines_minimal {σ α : Type} (P : CueParser σ α) (filename : List Char) (s : σ)
    (lines : List (List Char)) :
    ∃ consumed, consumed ++ (driveLines P filename s lines).2.2 = lines ∧
      (∀ pre l post, consumed = pre ++ l :: post → post ≠ [] →
        (P.Get (P.Feed (afterLines P s pre) l)).1 = none) ∧
      ((driveLines P filename s lines).1 = none →
        ∀ pre l post, consumed = pre ++ l :: post →
          (P.Get (P.Feed (afterLines P s pre) l)).1 = none) ∧
      (∀ song, (driveLines P filename s lines).1 = some song →
        ∃ pre l song0, consumed = pre ++ [l] ∧
          (P.Get (P.Feed (afterLines P s pre) l)).1 = some song0 ∧
          song = song0.SetURI filename) := by
  induction lines generalizing s with
  | nil =>
    refine ⟨[], rfl, ?_, ?_, ?_⟩
    · intro pre l post h
      exact absurd h (by simp)
    · intro _ pre l post h
      exact absurd h (by simp)
    · intro song h
      exact Option.noConfusion h
  | cons l0 ls ih =>
    cases hg : P.Get (P.Feed s l0) with
    | mk r p =>
      cases r with
      | some song0 =>
        simp only [driveLines, hg]
        refine ⟨[l0], rfl, ?_, ?_, ?_⟩
        · intro pre l post h hpost
          cases pre with
          | nil =>
            simp only [List.nil_append, List.cons.injEq] at h
            exact absurd h.2.symm hpost
          | cons x xs =>
            simp only [List.cons_append, List.cons.injEq] at h
            exact absurd h.2 (by simp)
        · intro h
          exact Option.noConfusion h
        · intro song h
          refine ⟨[], l0, song0, rfl, ?_, (Option.some.inj h).symm⟩
          show (P.Get (P.Feed s l0)).1 = some song0
          rw [hg]
      | none =>
        obtain ⟨consumed, h1, h2, h3, h4⟩ := ih p
        simp only [driveLines, hg]
        have hstep : ∀ pre : List (List Char),
            afterLines P s (l0 :: pre) = afterLines P p pre := by
          intro pre
          show afterLines P (P.Get (P.Feed s l0)).2 pre = afterLines P p pre
          rw [hg]
        have hhead : (P.Get (P.Feed (afterLines P s []) l0)).1 = none := by
          show (P.Get (P.Feed s l0)).1 = none
          rw [hg]
        refine ⟨l0 :: consumed, by rw [List.cons_append, h1], ?_, ?_, ?_⟩
        · intro pre l post h hpost
          cases pre with
          | nil =>
            simp only [List.nil_append, List.cons.injEq] at h
            rw [← h.1]
            exact hhead
          | cons x xs =>
            simp only [List.cons_append, List.cons.injEq] at h
            rw [← h.1, hstep]
            exact h2 xs l post h.2 hpost
        · intro hnone pre l post h
          cases pre with
          | nil =>
            simp only [List.nil_append, List.cons.injEq] at h
            rw [← h.1]
            exact hhead
          | cons x xs =>
            simp only [List.cons_append, List.cons.injEq] at h
            rw [← h.1, hstep]
            exact h3 hnone xs l post h.2
        · intro song hsong
          obtain ⟨pre, l, song1, k1, k2, k3⟩ := h4 song hsong
          refine ⟨l0 :: pre, l, song1, by rw [k1]; rfl, ?_, k3⟩
          rw [hstep]
          exact k2

/-- One pull with the traced parser when the entry drain yields nothing: the outcome in
terms of the feeding loop of the wrapped parser. -/
theorem drive_traced_of_idle {σ α : Type} (P : CueParser σ α) (filename : List Char)
    (s p : σ) (log : List ParserCall) (lines : List (List Char))
    (hg : P.Get s = (none, p)) :
    ∃ consumed, consumed ++ (driveLines P filename p lines).2.2 = lines ∧
      (drive (traced P) filename (s, log) lines).2.2 = (driveLines P filename p lines).2.2 ∧
      (∀ song, (driveLines P filename p lines).1 = some song →
        (drive (traced P) filename (s, log) lines).1 = some song ∧
          (drive (traced P) filename (s, log) lines).2.1.2 =
            log ++ ParserCall.get :: feedCalls consumed) ∧
      ((driveLines P filename p lines).1 = none →
        (drive (traced P) filename (s, log) lines).2.1.2 =
          log ++ (ParserCall.get :: feedCalls consumed ++
            [ParserCall.finish, ParserCall.get])) := by
  have hT : (traced P).Get (s, log) = (none, (p, log ++ [ParserCall.get])) := by
    simp [traced, hg]
  obtain ⟨h1, h2, h3, consumed, h4, h5⟩ :=
    driveLines_traced P filename p (log ++ [ParserCall.get]) lines
  refine ⟨consumed, h4, ?_, ?_, ?_⟩
  · cases hdT : driveLines (traced P) filename (p, log ++ [ParserCall.get]) lines with
    | mk r2T srT =>
      obtain ⟨s2T, restT⟩ := srT
      rw [hdT] at h3
      cases r2T <;> simp only [drive, hT, hdT] <;> exact h3
  · intro song hsong
    cases hdT : driveLines (traced P) filename (p, log ++ [ParserCall.get]) lines with
    | mk r2T srT =>
      obtain ⟨⟨s2T, logT⟩, restT⟩ := srT
      rw [hdT] at h1 h5
      simp only at h1 h5
      rw [hsong] at h1
      subst h1
      simp only [drive, hT, hdT]
      exact ⟨trivial, by rw [h5]; simp⟩
  · intro hnone
    cases hdT : driveLines (traced P) filename (p, log ++ [ParserCall.get]) lines with
    | mk r2T srT =>
      obtain ⟨⟨s2T, logT⟩, restT⟩ := srT
      rw [hdT] at h1 h5
      simp only at h1 h5
      rw [hnone] at h1
      subst h1
      simp only [drive, hT, hdT]
      simp [traced, h5]

/-! ## What the enumerator yields for what the parser completes -/

/-- After an entry drain that yields nothing, a pull on a non-empty list of lines is
the pull that starts with the drain after the first line was fed. -/
theorem drive_of_idle_cons {σ α : Type} (P : CueParser σ α) (filename : List Char)
    (s s1 : σ) (l : List Char) (ls : List (List Char)) (hg : P.Get s = (none, s1)) :
    drive P filename s (l :: ls) = drive P filename (P.Feed s1 l) ls := by
  cases hf : P.Get (P.Feed s1 l) with
  | mk r s2 =>
    cases r with
    | some song => simp only [drive, hg, driveLines, hf]
    | none => simp only [drive, hg, driveLines, hf]

/-- The same for a run of pulls that has at least one pull. -/
theorem drives_of_idle_cons {σ α : Type} (P : CueParser σ α) (filename : List Char)
    (n : Nat) (s s1 : σ) (l : List Char) (ls : List (List Char))
    (hg : P.Get s = (none, s1)) :
    drives P filename (n + 1) s (l :: ls) = drives P filename (n + 1) (P.Feed s1 l) ls := by
  simp only [drives, drive_of_idle_cons P filename s s1 l ls hg]

/-- The results of a run of pulls: the result of the first pull, then those of the
pulls that follow it. -/
theorem drives_succ_fst {σ α : Type} (P : CueParser σ α) (filename : List Char)
    (n : Nat) (s : σ) (lines : List (List Char)) :
    (drives P filename (n + 1) s lines).1 =
      (drive P filename s lines).1 ::
        (drives P filename n (drive P filename s lines).2.1
          (drive P filename s lines).2.2).1 := by
  simp only [drives]

/-- The results of a run of pulls whose first pull returns a song. -/
theorem drives_of_song {σ α : Type} (P : CueParser σ α) (filename : List Char)
    (n : Nat) (s s1 : σ) (d : DetachedSong α) (lines : List (List Char))
    (hg : P.Get s = (some d, s1)) :
    (drives P filename (n + 1) s lines).1 =
      some (d.SetURI filename) :: (drives P filename n s1 lines).1 := by
  simp only [drives, drive, hg]

/-- With a parser that guards `Finish` itself, pulls on a finished parser that has
nothing to drain, with no line left, return null. -/
theorem drives_finished_idle {σ α : Type} (P : CueParser σ α)
    (hG : FinishGuarded P) (filename : List Char) (k : Nat) (t : σ)
    (ht : P.Finish t = t) (hn : (P.Get t).1 = none) :
    (drives P filename k t []).1 = List.replicate k none := by
  induction k generalizing t with
  | zero => rfl
  | succ k ih =>
    obtain ⟨hkeep, hidle⟩ := hG.2 t ht
    have hnone : (P.Get (P.Get t).2).1 = none := hidle hn
    obtain ⟨hkeep2, hidle2⟩ := hG.2 (P.Get t).2 hkeep
    have hg : P.Get t = (none, (P.Get t).2) := Prod.ext hn rfl
    have hd : drive P filename t [] = (none, (P.Get (P.Get t).2).2, []) := by
      unfold drive
      rw [hg]
      simp only [driveLines, hkeep, hnone, Option.map_none']
    rw [drives_succ_fst, hd, List.replicate_succ]
    exact congrArg (List.cons none) (ih _ hkeep2 (hidle2 hnone))

/-- With a parser that guards `Finish` itself, pulls on a finished parser with no line
left return the descriptors that the parser still hands out, and then null. -/
theorem drives_completedAfterFinish {σ α : Type} (P : CueParser σ α)
    (hG : FinishGuarded P) (filename : List Char) (fuel k : Nat) (t : σ)
    (ds : List (DetachedSong α)) (ht : P.Finish t = t)
    (h : completedAfterFinish P fuel t = some ds) :
    (drives P filename (ds.length + k) t []).1 =
      ds.map (fun d => some (d.SetURI filename)) ++ List.replicate k none := by
  induction fuel generalizing t ds with
  | zero => simp [completedAfterFinish] at h
  | succ fuel ih =>
    cases hg : P.Get t with
    | mk r t2 =>
      cases r with
      | some d =>
        have hkeep : P.Finish t2 = t2 := by
          have := (hG.2 t ht).1
          rw [hg] at this
          exact this
        simp only [completedAfterFinish, hg, Option.map_eq_some'] at h
        obtain ⟨ds1, h1, rfl⟩ := h
        rw [List.length_cons, Nat.add_right_comm,
          drives_of_song P filename _ t t2 d [] hg, ih t2 ds1 hkeep h1]
        rfl
      | none =>
        simp only [completedAfterFinish, hg, Option.some.injEq] at h
        subst h
        rw [List.length_nil, Nat.zero_add]
        exact drives_finished_idle P hG filename k t ht (by rw [hg])

/-- With a parser that guards `Finish` itself, the pulls return the descriptors that
the parser completes for the lines, in order and located at `filename`, and then
null, however many pulls follow. -/
theorem drives_completedOn {σ α : Type} (P : CueParser σ α)
    (hG : FinishGuarded P) (filename : List Char) (fuel k : Nat) (s : σ)
    (lines : List (List Char)) (ds : List (DetachedSong α))
    (h : completedOn P fuel s lines = some ds) :
    (drives P filename (ds.length + k) s lines).1 =
      ds.map (fun d => some (d.SetURI filename)) ++ List.replicate k none := by
  induction fuel generalizing s lines ds with
  | zero => simp [completedOn] at h
  | succ fuel ih =>
    cases hg : P.Get s with
    | mk r s1 =>
      cases r with
      | some d =>
        simp only [completedOn, hg, Option.map_eq_some'] at h
        obtain ⟨ds1, h1, rfl⟩ := h
        rw [List.length_cons, Nat.add_right_comm,
          drives_of_song P filename _ s s1 d lines hg, ih s1 lines ds1 h1]
        rfl
      | none =>
        cases lines with
        | cons l ls =>
          simp only [completedOn, hg] at h
          have hrec := ih (P.Feed s1 l) ls ds h
          cases hm : ds.length + k with
          | zero =>
            obtain ⟨h0, k0⟩ := Nat.add_eq_zero_iff.1 hm
            rw [List.length_eq_zero] at h0
            subst h0
            subst k0
            rfl
          | succ m =>
            rw [hm] at hrec
            rw [drives_of_idle_cons P filename _ s s1 l ls hg]
            exact hrec
        | nil =>
          simp only [completedOn, hg] at h
          have hfix : P.Finish (P.Finish s1) = P.Finish s1 := hG.1 s1
          obtain ⟨hkeep, hidle⟩ := hG.2 (P.Finish s1) hfix
          cases fuel with
          | zero => simp [completedAfterFinish] at h
          | succ fuel =>
            cases hf : P.Get (P.Finish s1) with
            | mk r2 t2 =>
              rw [hf] at hkeep hidle
              cases r2 with
              | some d =>
                simp only [completedAfterFinish, hf, Option.map_eq_some'] at h
                obtain ⟨ds1, h1, rfl⟩ := h
                have hrest :=
                  drives_completedAfterFinish P hG filename fuel k t2 ds1 hkeep h1
                have hd : drive P filename s [] = (some (d.SetURI filename), t2, []) := by
                  simp only [drive, hg, driveLines, hf, Option.map_some']
                rw [List.length_cons, Nat.add_right_comm, drives_succ_fst, hd, hrest]
                rfl
              | none =>
                simp only [completedAfterFinish, hf, Option.some.injEq] at h
                subst h
                rw [List.length_nil, Nat.zero_add]
                cases k with
                | zero => rfl
                | succ k =>
                  have hd : drive P filename s [] = (none, t2, []) := by
                    simp only [drive, hg, driveLines, hf, Option.map_none']
                  obtain ⟨hkeep2, _⟩ := hG.2 t2 hkeep
                  rw [drives_succ_fst, hd, List.replicate_succ]
                  exact congrArg (List.cons none)
                    (drives_finished_idle P hG filename k t2 hkeep (hidle rfl))

/-- While the drains after the lines yield nothing, the feeding loop feeds every line
and yields nothing. -/
theorem driveLines_quiet {σ α : Type} (P : CueParser σ α) (filename : List Char)
    (s : σ) (lines : List (List Char)) (h : quietOn P s lines = true) :
    driveLines P filename s lines = (none, afterLines P s lines, []) := by
  induction lines generalizing s with
  | nil => rfl
  | cons l ls ih =>
    simp only [quietOn, Bool.and_eq_true, Option.isNone_iff_eq_none] at h
    cases hf : P.Get (P.Feed s l) with
    | mk r s1 =>
      rw [hf] at h
      obtain ⟨h1, h2⟩ := h
      simp only at h1
      subst h1
      simp only [driveLines, hf, afterLines, List.foldl_cons]
      exact ih s1 h2

/-- The track parser guards `Finish` itself. -/
theorem trackParser_guarded : FinishGuarded trackParser := by
  refine ⟨fun s => ?_, fun s hs => ?_⟩
  · cases s; simp [trackParser, TrackState.commit]
  · rcases s with ⟨cur, done⟩
    have hcur : cur = none := by
      have := congrArg TrackState.current hs
      simpa [trackParser] using this.symm
    subst hcur
    cases done with
    | nil => simp [trackParser, TrackState.commit]
    | cons d ds => simp [trackParser, TrackState.commit]

/-- The track parser ignores empty lines. -/
theorem trackParser_ignores_empty : IgnoresEmptyLines trackParser := fun s h => by
  rcases s with ⟨cur, done⟩
  cases done with
  | nil => rfl
  | cons d ds => simp [trackParser] at h

/-- The track parser without a guard ignores empty lines. -/
theorem unguardedTrackParser_ignores_empty : IgnoresEmptyLines unguardedTrackParser :=
  fun s h => by
    rcases s with ⟨cur, done⟩
    cases done with
    | nil => rfl
    | cons d ds => simp [unguardedTrackParser, trackParser] at h

/-! ## The claims -/

/-- C1, as stated, fails: with a parser that completes a descriptor at its second
`Finish`, `NextSong` on the text `x` returns null and the next call returns a song. -/
theorem NextSong_none_then_song :
    NextSong secondFinishParser ⟨"track.flac".toList, ['x'], 0, 0⟩ =
        some (none, ⟨"track.flac".toList, ['x'], 1, 1⟩) ∧
      NextSong secondFinishParser ⟨"track.flac".toList, ['x'], 1, 1⟩ =
        some (some ⟨"track.flac".toList, ()⟩, ⟨"track.flac".toList, ['x'], 1, 3⟩) := by
  decide!

/-- C1, amended: for a parser whose `Finish` is idempotent and whose drain leaves the
state unchanged when it yields nothing, once `NextSong` has returned null every later
call returns null as well, for every text and file name. -/
theorem NextSong_none_terminal {σ α : Type} (P : CueParser σ α)
    (hF : FinishIdempotent P) (hG : IdleDrain P)
    (pl pl1 : EmbeddedCuePlaylist σ) (h : NextSong P pl = some (none, pl1)) (n : Nat) :
    ∃ pl2, NextSongs P n pl1 = some (List.replicate n none, pl2) := by
  obtain ⟨plA, h1, h2, h3, _⟩ := NextSong_refines P pl
  rw [h1] at h
  have hr : (drive P pl.filename pl.parser (pendingLines pl.cuesheet pl.next)).1 = none :=
    congrArg Prod.fst (Option.some.inj h)
  have hp : plA = pl1 := congrArg Prod.snd (Option.some.inj h)
  subst hp
  obtain ⟨hrest, q, hq, hstate⟩ := drive_none P _ _ _ hr
  have hpar : plA.parser = P.Finish q := by
    rw [h2, hstate]; exact hG _ hq
  obtain ⟨pl2, k1, _⟩ := NextSongs_refines P n plA
  rw [h3, hrest, hpar, drives_finished P hF hG _ q hq n] at k1
  exact ⟨pl2, k1⟩

/-- The amended C1 at work: the track parser on a two-line text, from the call that
returns null on. -/
theorem NextSong_none_terminal_witness :
    NextSong trackParser ⟨"track.flac".toList, "x\ny".toList, 0, ⟨none, []⟩⟩ =
        some (none, ⟨"track.flac".toList, ['x', NUL, 'y'], 3, ⟨none, []⟩⟩) ∧
      ∃ pl2, NextSongs trackParser 3 ⟨"track.flac".toList, ['x', NUL, 'y'], 3, ⟨none, []⟩⟩ =
        some (List.replicate 3 none, pl2) :=
  ⟨by decide!,
    NextSong_none_terminal trackParser
      (fun s => by cases s; simp [trackParser, TrackState.commit])
      (fun s => by
        rcases s with ⟨cur, done⟩
        cases done <;> simp [trackParser])
      ⟨"track.flac".toList, "x\ny".toList, 0, ⟨none, []⟩⟩ _ (by decide!) 3⟩

theorem finishCount_feedCalls (ls : List (List Char)) : finishCount (feedCalls ls) = 0 :=
  List.count_eq_zero.2 (finish_not_mem_feedCalls ls)

theorem finishCount_append (a b : List ParserCall) :
    finishCount (a ++ b) = finishCount a + finishCount b :=
  List.count_append _ _ _

/-- One call of `NextSong` with the traced parser: the calls it adds to the log hold
`Finish` at most once, exactly once when the call returns null, and at most once only
with `next` left on a NUL. -/
theorem NextSong_traced_finish {σ α : Type} (P : CueParser σ α)
    (pl : EmbeddedCuePlaylist (σ × List ParserCall)) :
    ∃ r pl1 calls, NextSong (traced P) pl = some (r, pl1) ∧
      pl1.parser.2 = pl.parser.2 ++ calls ∧
      finishCount calls ≤ 1 ∧
      (r = none → finishCount calls = 1) ∧
      (finishCount calls = 1 → charAt pl1.cuesheet pl1.next = NUL) := by
  obtain ⟨pl1, h1, h2, h3, _⟩ := NextSong_refines (traced P) pl
  rcases hpar : pl.parser with ⟨s, log⟩
  rw [hpar] at h1 h2 h3
  obtain ⟨d1, d2, d3, hcase⟩ :=
    drive_traced P pl.filename s log (pendingLines pl.cuesheet pl.next)
  refine ⟨(drive (traced P) pl.filename (s, log) (pendingLines pl.cuesheet pl.next)).1,
    pl1, ?_⟩
  rcases hcase with ⟨consumed, song, _, hlog, hsong⟩ | ⟨hrest, hlog, _⟩
  · refine ⟨ParserCall.get :: feedCalls consumed, h1, ?_, ?_, ?_, ?_⟩
    · rw [h2, hlog]
    · simp [finishCount, List.count_cons, finishCount_feedCalls,
        show List.count ParserCall.finish (feedCalls consumed) = 0 from
          finishCount_feedCalls consumed]
    · intro hnone
      rw [d1, hsong] at hnone
      exact Option.noConfusion hnone
    · intro hone
      have : finishCount (ParserCall.get :: feedCalls consumed) = 0 := by
        simp [finishCount, List.count_cons,
          show List.count ParserCall.finish (feedCalls consumed) = 0 from
            finishCount_feedCalls consumed]
      omega
  · have hcount : finishCount (ParserCall.get ::
        feedCalls (pendingLines pl.cuesheet pl.next) ++
          [ParserCall.finish, ParserCall.get]) = 1 := by
      simp [finishCount, List.count_cons, List.count_append,
        show List.count ParserCall.finish (feedCalls (pendingLines pl.cuesheet pl.next)) = 0
          from finishCount_feedCalls _]
    refine ⟨_, h1, ?_, Nat.le_of_eq hcount, fun _ => hcount, fun _ => ?_⟩
    · rw [h2, hlog]
    · rw [← pendingLines_eq_nil_iff, h3, d3]
      exact hrest

/-- C2, as stated, fails: two successive `NextSong` calls on the text `x`, with a parser
that never completes a descriptor, both return null and send `Finish` twice. -/
theorem NextSong_finish_sent_twice :
    (NextSongs (traced nullParser) 2 ⟨"track.flac".toList, ['x'], 0, ((), [])⟩).map
        (fun r => (r.1, finishCount r.2.parser.2)) =
      some ([none, none], 2) := by
  decide!

/-- C2, amended: over any `n` successive `NextSong` calls, from any state of the
enumerator, `Finish` is sent at most once per call, and once by every call that returns
null: the number of `Finish` calls lies between the number of null results and `n`.
No guard keeps a later call from sending it again. -/
theorem NextSongs_finish_count {σ α : Type} (P : CueParser σ α) (n : Nat)
    (pl : EmbeddedCuePlaylist (σ × List ParserCall)) :
    ∃ rs pl1 calls, NextSongs (traced P) n pl = some (rs, pl1) ∧
      pl1.parser.2 = pl.parser.2 ++ calls ∧
      (rs.filter Option.isNone).length ≤ finishCount calls ∧ finishCount calls ≤ n := by
  induction n generalizing pl with
  | zero =>
    exact ⟨[], pl, [], rfl, by simp, by simp [finishCount], by simp [finishCount]⟩
  | succ n ih =>
    obtain ⟨r, pl1, calls, h1, h2, h3, h4, _⟩ := NextSong_traced_finish P pl
    obtain ⟨rs, pl2, calls2, k1, k2, k3, k4⟩ := ih pl1
    refine ⟨r :: rs, pl2, calls ++ calls2, ?_, ?_, ?_, ?_⟩
    · simp only [NextSongs, h1, k1]
    · rw [k2, h2, List.append_assoc]
    · rw [finishCount_append]
      cases r with
      | none =>
        have := h4 rfl
        simp only [List.filter_cons, Option.isNone_none, if_true, List.length_cons]
        omega
      | some song =>
        simp only [List.filter_cons, Option.isNone_some]
        simp only [Bool.false_eq_true, if_false]
        omega
    · rw [finishCount_append]
      omega

/-- C3: whenever `NextSong` returns a song, from any state and with any parser, the
location of the song is the `filename` of the enumerator, which the call leaves
unchanged, and the song is otherwise the one that the last `Get` of the call yielded:
that descriptor with its location replaced, all other fields kept. -/
theorem NextSong_song_location {σ α : Type} (P : CueParser σ α)
    (pl pl1 : EmbeddedCuePlaylist σ) (song : DetachedSong α)
    (h : NextSong P pl = some (some song, pl1)) :
    song.uri = pl.filename ∧ pl1.filename = pl.filename ∧
      ∃ q song0, P.Get q = (some song0, pl1.parser) ∧
        song = song0.SetURI pl.filename ∧ song.other = song0.other := by
  obtain ⟨plA, h1, h2, _, h4, _⟩ := NextSong_refines P pl
  rw [h1] at h
  have hr : (drive P pl.filename pl.parser (pendingLines pl.cuesheet pl.next)).1 = some song :=
    congrArg Prod.fst (Option.some.inj h)
  have hp : plA = pl1 := congrArg Prod.snd (Option.some.inj h)
  subst hp
  obtain ⟨q, song0, hq, hs⟩ := drive_some P _ _ _ song hr
  refine ⟨?_, h4, q, song0, ?_, hs, ?_⟩
  · rw [hs]; rfl
  · rw [h2]; exact hq
  · rw [hs]; rfl

/-- C3 at work: the track parser locates its descriptors at `cd.wav`; the song that
`NextSong` returns for `track.flac` is located at `track.flac` and keeps its title. -/
theorem NextSong_song_location_witness :
    NextSong trackParser
        ⟨"track.flac".toList, "TRACK 01\nTITLE \"A\"\nTRACK 02".toList, 0, ⟨none, []⟩⟩ =
      some (some ⟨"track.flac".toList, ['A']⟩,
        ⟨"track.flac".toList,
          "TRACK 01".toList ++ NUL :: "TITLE \"A\"".toList ++ NUL :: "TRACK 02".toList,
          27, ⟨some [], []⟩⟩) ∧
    ∃ q song0, trackParser.Get q = (some song0, (⟨some [], []⟩ : TrackState)) ∧
      (⟨"track.flac".toList, ['A']⟩ : DetachedSong (List Char)) =
        song0.SetURI "track.flac".toList ∧
      ['A'] = song0.other :=
  ⟨by decide!,
    (NextSong_song_location trackParser
      ⟨"track.flac".toList, "TRACK 01\nTITLE \"A\"\nTRACK 02".toList, 0, ⟨none, []⟩⟩
      ⟨"track.flac".toList,
        "TRACK 01".toList ++ NUL :: "TITLE \"A\"".toList ++ NUL :: "TRACK 02".toList,
        27, ⟨some [], []⟩⟩
      ⟨"track.flac".toList, ['A']⟩ (by decide!)).2.2⟩

/-- C4: for a text without NUL, any parser and any number `n` of successive `NextSong`
calls from offset 0, the calls return, the lines fed so far are an initial part of the
text split at every single CR or LF (`splitLines`), in order, and once a call has
returned null the lines fed are exactly those of `splitLines`. -/
theorem NextSongs_feeds_splitLines {σ α : Type} (P : CueParser σ α) (s0 : σ)
    (filename text : List Char) (n : Nat) (hN : ∀ c ∈ text, c ≠ NUL) :
    ∃ rs pl1, NextSongs (traced P) n ⟨filename, text, 0, (s0, [])⟩ = some (rs, pl1) ∧
      (∃ rest, feedsOf pl1.parser.2 ++ rest = splitLines text) ∧
      (none ∈ rs → feedsOf pl1.parser.2 = splitLines text) := by
  obtain ⟨rs, pl1, h1, hE, hdone⟩ := NextSongs_traced_log P s0 filename text n hN
  refine ⟨rs, pl1, h1, ⟨_, hE.feeds_prefix⟩, ?_⟩
  intro hnone
  have := hE.feeds_prefix
  rw [hdone hnone, List.append_nil] at this
  exact this

/-- C4 at work, on the text of the specification: three calls with the track parser
return the two tracks and then null, and the lines fed are `TRACK 01`, `TITLE "A"`,
`TRACK 02`, `TITLE "B"`. -/
theorem NextSongs_feeds_splitLines_witness :
    (∀ c ∈ "TRACK 01\nTITLE \"A\"\nTRACK 02\nTITLE \"B\"".toList, c ≠ NUL) ∧
      (∃ rs pl1,
        NextSongs (traced trackParser) 3
            ⟨"track.flac".toList, "TRACK 01\nTITLE \"A\"\nTRACK 02\nTITLE \"B\"".toList, 0,
              (⟨none, []⟩, [])⟩ = some (rs, pl1) ∧
          (∃ rest, feedsOf pl1.parser.2 ++ rest =
            splitLines "TRACK 01\nTITLE \"A\"\nTRACK 02\nTITLE \"B\"".toList) ∧
          (none ∈ rs → feedsOf pl1.parser.2 =
            splitLines "TRACK 01\nTITLE \"A\"\nTRACK 02\nTITLE \"B\"".toList)) ∧
      splitLines "TRACK 01\nTITLE \"A\"\nTRACK 02\nTITLE \"B\"".toList =
        ["TRACK 01".toList, "TITLE \"A\"".toList, "TRACK 02".toList, "TITLE \"B\"".toList] ∧
      (NextSongs (traced trackParser) 3
          ⟨"track.flac".toList, "TRACK 01\nTITLE \"A\"\nTRACK 02\nTITLE \"B\"".toList, 0,
            (⟨none, []⟩, [])⟩).map (fun r => (r.1, feedsOf r.2.parser.2)) =
        some ([some ⟨"track.flac".toList, ['A']⟩, some ⟨"track.flac".toList, ['B']⟩, none],
          ["TRACK 01".toList, "TITLE \"A\"".toList, "TRACK 02".toList,
            "TITLE \"B\"".toList]) :=
  ⟨by decide!,
    NextSongs_feeds_splitLines trackParser ⟨none, []⟩ "track.flac".toList
      "TRACK 01\nTITLE \"A\"\nTRACK 02\nTITLE \"B\"".toList 3 (by decide!),
    by decide!, by decide!⟩

/-- C5, as stated, fails: the track parser without a guard on `Finish` ignores empty
lines and completes one descriptor for the two lines of a one-track text, driven with
one `Finish`. `NextSong` on these lines joined with LF sends `Finish` in every call and
returns a descriptor in each of three calls: three descriptors for one track. -/
theorem NextSongs_unguarded_repeats :
    (∀ l ∈ ["TRACK 01".toList, "TITLE \"A\"".toList],
        ∀ c ∈ l, c ≠ NUL ∧ c ≠ CR ∧ c ≠ LF) ∧
      IgnoresEmptyLines unguardedTrackParser ∧
      completedOn unguardedTrackParser 8 ⟨none, []⟩
          ["TRACK 01".toList, "TITLE \"A\"".toList] =
        some [⟨"cd.wav".toList, ['A']⟩] ∧
      (NextSongs unguardedTrackParser 3
          ⟨"track.flac".toList,
            joinLines ["TRACK 01".toList, "TITLE \"A\"".toList] (fun _ => Separator.lf),
            0, ⟨none, []⟩⟩).map Prod.fst =
        some [some ⟨"track.flac".toList, ['A']⟩, some ⟨"track.flac".toList, ['A']⟩,
          some ⟨"track.flac".toList, ['A']⟩] :=
  ⟨by decide!, unguardedTrackParser_ignores_empty, by decide!, by decide!⟩

/-- C5, amended: take lines without NUL, CR or LF, joined with any separators among
CR, LF and CRLF. With any parser, once a `NextSong` call has returned null, the
non-empty lines fed are the non-empty ones of the given lines, in order, whichever
separators are used. With a parser that ignores empty lines, the results of `n`
successive calls (descriptors and nulls, call by call) and the parser state they leave
are the same for any two choices of separators, and every descriptor is located at
`filename`. If that parser also guards `Finish` itself and completes the `N`
descriptors `ds` for the non-empty lines, then `N + k` calls return exactly these `N`
descriptors, in order and each located at `filename`, and then null `k` times,
whichever separators are used. -/
theorem NextSongs_separators {σ α : Type} (P : CueParser σ α) (s0 : σ)
    (filename : List Char) (lines : List (List Char)) (seps1 seps2 : Nat → Separator)
    (n fuel k : Nat) (ds : List (DetachedSong α))
    (hL : ∀ l ∈ lines, ∀ c ∈ l, c ≠ NUL ∧ c ≠ CR ∧ c ≠ LF) :
    (∃ rs pl1,
        NextSongs (traced P) n ⟨filename, joinLines lines seps1, 0, (s0, [])⟩ =
          some (rs, pl1) ∧
        (none ∈ rs → (feedsOf pl1.parser.2).filter (fun l => !l.isEmpty) =
          lines.filter (fun l => !l.isEmpty))) ∧
      (IgnoresEmptyLines P →
        (∃ rs pl1 pl2,
          NextSongs P n ⟨filename, joinLines lines seps1, 0, s0⟩ = some (rs, pl1) ∧
          NextSongs P n ⟨filename, joinLines lines seps2, 0, s0⟩ = some (rs, pl2) ∧
          pl1.parser = pl2.parser ∧
          ∀ song, some song ∈ rs → song.uri = filename) ∧
        (FinishGuarded P →
          completedOn P fuel s0 (lines.filter (fun l => !l.isEmpty)) = some ds →
          ∃ pl1 pl2,
            NextSongs P (ds.length + k) ⟨filename, joinLines lines seps1, 0, s0⟩ =
              some (ds.map (fun d => some (d.SetURI filename)) ++ List.replicate k none,
                pl1) ∧
            NextSongs P (ds.length + k) ⟨filename, joinLines lines seps2, 0, s0⟩ =
              some (ds.map (fun d => some (d.SetURI filename)) ++ List.replicate k none,
                pl2))) := by
  have hN1 := joinLines_no_NUL lines seps1 hL
  have hN2 := joinLines_no_NUL lines seps2 hL
  constructor
  · obtain ⟨rs, pl1, h1, hE, hdone⟩ :=
      NextSongs_traced_log P s0 filename (joinLines lines seps1) n hN1
    refine ⟨rs, pl1, h1, fun hnone => ?_⟩
    have := hE.feeds_prefix
    rw [hdone hnone, List.append_nil] at this
    rw [this, ← cutLines_eq_splitLines]
    exact cutLines_joinLines lines seps1 hL
  · intro hI
    constructor
    · obtain ⟨pl1, h1, h2, _⟩ :=
        NextSongs_refines P n ⟨filename, joinLines lines seps1, 0, s0⟩
      obtain ⟨pl2, k1, k2, _⟩ :=
        NextSongs_refines P n ⟨filename, joinLines lines seps2, 0, s0⟩
      simp only [pendingLines_start _ hN1, ← cutLines_eq_splitLines] at h1 h2
      simp only [pendingLines_start _ hN2, ← cutLines_eq_splitLines] at k1 k2
      obtain ⟨a1, a2⟩ := drives_filter P hI filename n s0 (cutLines (joinLines lines seps1))
      obtain ⟨b1, b2⟩ := drives_filter P hI filename n s0 (cutLines (joinLines lines seps2))
      rw [cutLines_joinLines lines seps1 hL] at a1 a2
      rw [cutLines_joinLines lines seps2 hL] at b1 b2
      refine ⟨_, pl1, pl2, h1, ?_, ?_, ?_⟩
      · rw [k1, ← b1, a1]
      · rw [h2, k2, ← a2, b2]
      · intro song hs
        exact drives_uri P filename n s0 _ song hs
    · intro hG hC
      have hyield := drives_completedOn P hG filename fuel k s0 _ ds hC
      obtain ⟨pl1, h1, _⟩ :=
        NextSongs_refines P (ds.length + k) ⟨filename, joinLines lines seps1, 0, s0⟩
      obtain ⟨pl2, k1, _⟩ :=
        NextSongs_refines P (ds.length + k) ⟨filename, joinLines lines seps2, 0, s0⟩
      simp only [pendingLines_start _ hN1, ← cutLines_eq_splitLines] at h1
      simp only [pendingLines_start _ hN2, ← cutLines_eq_splitLines] at k1
      obtain ⟨a1, _⟩ :=
        drives_filter P hI filename (ds.length + k) s0 (cutLines (joinLines lines seps1))
      obtain ⟨b1, _⟩ :=
        drives_filter P hI filename (ds.length + k) s0 (cutLines (joinLines lines seps2))
      rw [cutLines_joinLines lines seps1 hL, hyield] at a1
      rw [cutLines_joinLines lines seps2 hL, hyield] at b1
      refine ⟨pl1, pl2, ?_, ?_⟩
      · rw [h1, ← a1]
      · rw [k1, ← b1]

/-- The amended C5 at work: the four lines of the specification, joined with CRLF
throughout or with LF, CR, LF. The track parser ignores empty lines, guards `Finish`
and completes two descriptors for the four lines; four calls return these two tracks,
located at `track.flac`, and then null twice, with either choice of separators. -/
theorem NextSongs_separators_witness :
    (∀ l ∈ ["TRACK 01".toList, "TITLE \"A\"".toList, "TRACK 02".toList, "TITLE \"B\"".toList],
        ∀ c ∈ l, c ≠ NUL ∧ c ≠ CR ∧ c ≠ LF) ∧
      IgnoresEmptyLines trackParser ∧ FinishGuarded trackParser ∧
      completedOn trackParser 9 ⟨none, []⟩
          (["TRACK 01".toList, "TITLE \"A\"".toList, "TRACK 02".toList,
            "TITLE \"B\"".toList].filter (fun l => !l.isEmpty)) =
        some [⟨"cd.wav".toList, ['A']⟩, ⟨"cd.wav".toList, ['B']⟩] ∧
      (∃ pl1 pl2,
        NextSongs trackParser 4
            ⟨"track.flac".toList,
              joinLines ["TRACK 01".toList, "TITLE \"A\"".toList, "TRACK 02".toList,
                "TITLE \"B\"".toList] (fun _ => Separator.crlf), 0, ⟨none, []⟩⟩ =
          some ([some ⟨"track.flac".toList, ['A']⟩, some ⟨"track.flac".toList, ['B']⟩,
            none, none], pl1) ∧
        NextSongs trackParser 4
            ⟨"track.flac".toList,
              joinLines ["TRACK 01".toList, "TITLE \"A\"".toList, "TRACK 02".toList,
                "TITLE \"B\"".toList]
                (fun i => if i = 1 then Separator.cr else Separator.lf), 0, ⟨none, []⟩⟩ =
          some ([some ⟨"track.flac".toList, ['A']⟩, some ⟨"track.flac".toList, ['B']⟩,
            none, none], pl2)) ∧
      (NextSongs (traced trackParser) 3
          ⟨"track.flac".toList,
            joinLines ["TRACK 01".toList, "TITLE \"A\"".toList, "TRACK 02".toList,
              "TITLE \"B\"".toList] (fun _ => Separator.crlf), 0, (⟨none, []⟩, [])⟩).map
          (fun r => feedsOf r.2.parser.2) =
        some ["TRACK 01".toList, [], "TITLE \"A\"".toList, [], "TRACK 02".toList, [],
          "TITLE \"B\"".toList] :=
  ⟨by decide!, trackParser_ignores_empty, trackParser_guarded, by decide!,
    ((NextSongs_separators trackParser ⟨none, []⟩ "track.flac".toList
      ["TRACK 01".toList, "TITLE \"A\"".toList, "TRACK 02".toList, "TITLE \"B\"".toList]
      (fun _ => Separator.crlf) (fun i => if i = 1 then Separator.cr else Separator.lf) 3 9 2
      [⟨"cd.wav".toList, ['A']⟩, ⟨"cd.wav".toList, ['B']⟩]
      (by decide!)).2 trackParser_ignores_empty).2 trackParser_guarded (by decide!),
    by decide!⟩

/-- C6: take a non-empty text without NUL whose last character is neither CR nor LF,
and the state `pl` that `n` calls of `NextSong` from offset 0 leave, with any parser.
Suppose the parser finalizes its pending last track only at the end of input signal:
in the state of `pl` its drain yields nothing, the drains after the lines still to
feed yield nothing, and the drain after `Finish` then yields the descriptor `d`. Then
the last line of the text is its undelimited final line, in full and not empty; the
next call feeds the lines still to feed, and with them every line of the text, the
final line last, has been fed; the call then sends `Finish`, drains once, and returns
`d` located at `filename`, not null, with no line left to feed. -/
theorem NextSongs_final_line {σ α : Type} (P : CueParser σ α) (s0 s1 : σ)
    (filename text : List Char) (n : Nat) (rs : List (Option (DetachedSong α)))
    (pl : EmbeddedCuePlaylist (σ × List ParserCall)) (d : DetachedSong α)
    (hN : ∀ c ∈ text, c ≠ NUL) (hne : text ≠ [])
    (hlast : ∀ c, text.getLast? = some c → c ≠ CR ∧ c ≠ LF)
    (hrun : NextSongs (traced P) n ⟨filename, text, 0, (s0, [])⟩ = some (rs, pl))
    (hidle : (P.Get pl.parser.1).1 = none)
    (hquiet : quietOn P (P.Get pl.parser.1).2 (pendingLines pl.cuesheet pl.next) = true)
    (hfinish : P.Get (P.Finish
        (afterLines P (P.Get pl.parser.1).2 (pendingLines pl.cuesheet pl.next))) =
      (some d, s1)) :
    finalLine text ≠ [] ∧ (splitLines text).getLast? = some (finalLine text) ∧
      feedsOf (pl.parser.2 ++
          ParserCall.get :: feedCalls (pendingLines pl.cuesheet pl.next)) =
        splitLines text ∧
      ∃ pl1, NextSong (traced P) pl = some (some (d.SetURI filename), pl1) ∧
        pl1.parser = (s1, pl.parser.2 ++
          (ParserCall.get :: feedCalls (pendingLines pl.cuesheet pl.next) ++
            [ParserCall.finish, ParserCall.get])) ∧
        pendingLines pl1.cuesheet pl1.next = [] := by
  obtain ⟨hfl, hll⟩ := splitLines_final text hne hlast
  obtain ⟨rs1, plA, h1, hE, _⟩ := NextSongs_traced_log P s0 filename text n hN
  obtain ⟨plB, k1, _, _, k4, _⟩ := NextSongs_refines (traced P) n ⟨filename, text, 0, (s0, [])⟩
  rw [hrun] at h1 k1
  have hA : pl = plA := congrArg Prod.snd (Option.some.inj h1)
  have hB : pl = plB := congrArg Prod.snd (Option.some.inj k1)
  subst hA
  subst hB
  have hname : pl.filename = filename := k4
  have hfed : feedsOf (pl.parser.2 ++
      ParserCall.get :: feedCalls (pendingLines pl.cuesheet pl.next)) = splitLines text := by
    rw [feedsOf_append]
    simp only [feedsOf, feedsOf_feedCalls]
    exact hE.feeds_prefix
  refine ⟨hfl, hll, hfed, ?_⟩
  have hg : P.Get pl.parser.1 = (none, (P.Get pl.parser.1).2) := Prod.ext hidle rfl
  have hdl := driveLines_quiet P pl.filename (P.Get pl.parser.1).2
    (pendingLines pl.cuesheet pl.next) hquiet
  have hD : drive P pl.filename pl.parser.1 (pendingLines pl.cuesheet pl.next) =
      (some (d.SetURI pl.filename), s1, []) := by
    unfold drive
    rw [hg]
    simp only [hdl, hfinish, Option.map_some']
  obtain ⟨t1, t2, t3, _⟩ :=
    drive_traced P pl.filename pl.parser.1 pl.parser.2 (pendingLines pl.cuesheet pl.next)
  obtain ⟨consumed, c1, _, _, c4⟩ :=
    drive_traced_of_idle P pl.filename pl.parser.1 (P.Get pl.parser.1).2 pl.parser.2
      (pendingLines pl.cuesheet pl.next) hg
  rw [hdl] at c1 c4
  simp only [List.append_nil] at c1
  subst c1
  have hlog := c4 rfl
  rw [hD] at t1 t2 t3
  simp only [Prod.mk.eta] at t1 t2 t3 hlog
  obtain ⟨pl1, r1, r2, r3, _⟩ := NextSong_refines (traced P) pl
  rw [t1] at r1
  rw [t3] at r3
  rw [hname] at r1
  refine ⟨pl1, r1, ?_, r3⟩
  rw [r2]
  exact Prod.ext t2 hlog

/-- C6 at work: the text of two tracks has no delimiter after its final line
`TITLE "B"`. The first call returns the first track and leaves that final line to
feed; the track parser has the second track pending and completes it at `Finish`
only. The second call feeds the final line, sends `Finish`, drains once and returns
the second track, located at `track.flac`. -/
theorem NextSongs_final_line_witness :
    ((∀ c ∈ "TRACK 01\nTITLE \"A\"\r\nTRACK 02\nTITLE \"B\"".toList, c ≠ NUL) ∧
        "TRACK 01\nTITLE \"A\"\r\nTRACK 02\nTITLE \"B\"".toList ≠ [] ∧
        (∀ c, "TRACK 01\nTITLE \"A\"\r\nTRACK 02\nTITLE \"B\"".toList.getLast? = some c →
          c ≠ CR ∧ c ≠ LF)) ∧
      NextSongs (traced trackParser) 1
          ⟨"track.flac".toList, "TRACK 01\nTITLE \"A\"\r\nTRACK 02\nTITLE \"B\"".toList, 0,
            (⟨none, []⟩, [])⟩ =
        some ([some ⟨"track.flac".toList, ['A']⟩],
          ⟨"track.flac".toList,
            "TRACK 01".toList ++ NUL :: "TITLE \"A\"".toList ++ NUL :: NUL ::
              "TRACK 02".toList ++ NUL :: "TITLE \"B\"".toList, 29,
            (⟨some [], []⟩,
              [ParserCall.get, ParserCall.feed "TRACK 01".toList, ParserCall.get,
                ParserCall.feed "TITLE \"A\"".toList, ParserCall.get,
                ParserCall.feed [], ParserCall.get,
                ParserCall.feed "TRACK 02".toList, ParserCall.get])⟩) ∧
      finalLine "TRACK 01\nTITLE \"A\"\r\nTRACK 02\nTITLE \"B\"".toList =
        "TITLE \"B\"".toList ∧
      (splitLines "TRACK 01\nTITLE \"A\"\r\nTRACK 02\nTITLE \"B\"".toList).getLast? =
        some "TITLE \"B\"".toList ∧
      ∃ pl1,
        NextSong (traced trackParser)
            ⟨"track.flac".toList,
              "TRACK 01".toList ++ NUL :: "TITLE \"A\"".toList ++ NUL :: NUL ::
                "TRACK 02".toList ++ NUL :: "TITLE \"B\"".toList, 29,
              (⟨some [], []⟩,
                [ParserCall.get, ParserCall.feed "TRACK 01".toList, ParserCall.get,
                  ParserCall.feed "TITLE \"A\"".toList, ParserCall.get,
                  ParserCall.feed [], ParserCall.get,
                  ParserCall.feed "TRACK 02".toList, ParserCall.get])⟩ =
          some (some ⟨"track.flac".toList, ['B']⟩, pl1) ∧
        pl1.parser = (⟨none, []⟩,
          [ParserCall.get, ParserCall.feed "TRACK 01".toList, ParserCall.get,
            ParserCall.feed "TITLE \"A\"".toList, ParserCall.get,
            ParserCall.feed [], ParserCall.get,
            ParserCall.feed "TRACK 02".toList, ParserCall.get,
            ParserCall.get, ParserCall.feed "TITLE \"B\"".toList, ParserCall.get,
            ParserCall.finish, ParserCall.get]) :=
  have hrun : NextSongs (traced trackParser) 1
      ⟨"track.flac".toList, "TRACK 01\nTITLE \"A\"\r\nTRACK 02\nTITLE \"B\"".toList, 0,
        (⟨none, []⟩, [])⟩ =
      some ([some ⟨"track.flac".toList, ['A']⟩],
        ⟨"track.flac".toList,
          "TRACK 01".toList ++ NUL :: "TITLE \"A\"".toList ++ NUL :: NUL ::
            "TRACK 02".toList ++ NUL :: "TITLE \"B\"".toList, 29,
          (⟨some [], []⟩,
            [ParserCall.get, ParserCall.feed "TRACK 01".toList, ParserCall.get,
              ParserCall.feed "TITLE \"A\"".toList, ParserCall.get,
              ParserCall.feed [], ParserCall.get,
              ParserCall.feed "TRACK 02".toList, ParserCall.get])⟩) := by decide!
  have hmain := NextSongs_final_line trackParser ⟨none, []⟩ ⟨none, []⟩
    "track.flac".toList "TRACK 01\nTITLE \"A\"\r\nTRACK 02\nTITLE \"B\"".toList 1 _ _
    ⟨"cd.wav".toList, ['B']⟩ (by decide!) (by decide!) (by decide!) hrun (by decide!)
    (by decide!) (by decide!)
  ⟨⟨by decide!, by decide!, by decide!⟩, hrun, by decide!, by decide!,
    hmain.2.2.2.imp (fun _ h => ⟨h.1, h.2.1.trans (by decide!)⟩)⟩

/-- C7, as stated, fails: of two `CUESHEET` pairs, the first with an empty value, the
handler records the second value, not the value of the first pair with that key. -/
theorem deliverPairs_empty_first_replaced :
    (deliverPairs { cuesheet := [] }
        [("CUESHEET".toList, []), ("CUESHEET".toList, "TRACK 01".toList)]).cuesheet =
        "TRACK 01".toList ∧
      ([("CUESHEET".toList, ([] : List Char)), ("CUESHEET".toList, "TRACK 01".toList)].find?
          (fun kv => StringEqualsCaseASCII kv.1 "cuesheet".toList)).map Prod.snd =
        some [] := by
  decide!

/-- C7, amended: for every sequence of pairs delivered to `OnPair` of a fresh handler,
the recorded cuesheet is the value of the first pair whose key equals `cuesheet` up to
ASCII case and whose value is not empty, and it is empty if there is none. A pair with
another key never changes the handler, and no pair changes it once a non-empty value
is recorded. -/
theorem deliverPairs_first_nonempty (pairs : List (List Char × List Char)) :
    (deliverPairs { cuesheet := [] } pairs).cuesheet = firstCuesheet pairs ∧
      (∀ (h : ExtractCuesheetTagHandler) (name value : List Char),
        StringEqualsCaseASCII name "cuesheet".toList = false → h.OnPair name value = h) ∧
      (∀ (h : ExtractCuesheetTagHandler) (name value : List Char),
        h.cuesheet ≠ [] → h.OnPair name value = h) := by
  refine ⟨?_, OnPair_of_other_key, OnPair_of_nonempty⟩
  rw [deliverPairs_fresh]

/-- C8: for a path whose non-generic scan delivers a pair with the key `cuesheet` (up
to ASCII case) and a non-empty value, `embcue_playlist_open_uri` returns without a call
of `ScanGenericTags`, and its result is the same whatever `ScanGenericTags` would do;
when the path is absolute the calls are `ScanFileTagsNoGeneric` and the parser
constructor, and the playlist returned holds the first such value of the non-generic
scan, at offset 0. -/
theorem open_uri_native_skips_generic {ω ε Path σ : Type} (E : Collaborators ω ε Path σ)
    (uri : List Char) (w w1 : ω) (path : Path) (pairs : List (List Char × List Char))
    (log : List CollaboratorCall)
    (hconv : E.FromUTF8Throw uri = Except.ok path)
    (hscan : E.ScanFileTagsNoGeneric path w = Except.ok (pairs, w1))
    (hpair : ∃ kv ∈ pairs, isCuesheetPair kv = true) :
    (∃ r w3 calls,
        embcue_playlist_open_uri (logged E) uri (w, log) = Except.ok (r, (w3, log ++ calls)) ∧
          CollaboratorCall.scanGenericTags ∉ calls) ∧
      (∀ generic2 : Path → ω → Except ε (List (List Char × List Char) × ω),
        embcue_playlist_open_uri { E with ScanGenericTags := generic2 } uri w =
          embcue_playlist_open_uri E uri w) ∧
      (E.IsAbsolute uri = true →
        firstCuesheet pairs ≠ [] ∧
          embcue_playlist_open_uri (logged E) uri (w, log) =
            Except.ok
              (some { filename := E.GetBase uri, cuesheet := firstCuesheet pairs, next := 0,
                      parser := (E.NewCueParser w1).1 },
                ((E.NewCueParser w1).2,
                  log ++ [CollaboratorCall.scanFileTagsNoGeneric,
                    CollaboratorCall.newCueParser]))) := by
  have hne := firstCuesheet_of_some pairs hpair
  have hscanL : (logged E).ScanFileTagsNoGeneric path (w, log) =
      Except.ok (pairs, (w1, log ++ [CollaboratorCall.scanFileTagsNoGeneric])) := by
    simp [logged, hscan]
  have hfull : E.IsAbsolute uri = true →
      embcue_playlist_open_uri (logged E) uri (w, log) =
        Except.ok
          (some { filename := E.GetBase uri, cuesheet := firstCuesheet pairs, next := 0,
                  parser := (E.NewCueParser w1).1 },
            ((E.NewCueParser w1).2,
              log ++ [CollaboratorCall.scanFileTagsNoGeneric,
                CollaboratorCall.newCueParser])) := by
    intro habs
    rw [open_uri_of_native (logged E) uri (w, log) _ path pairs habs hconv hscanL hne]
    simp [logged]
  refine ⟨?_, fun generic2 => ?_, fun habs => ⟨hne, hfull habs⟩⟩
  · cases habs : E.IsAbsolute uri with
    | false =>
      refine ⟨none, w, [], ?_, by simp⟩
      rw [open_uri_of_relative (logged E) uri (w, log) habs, List.append_nil]
    | true =>
      exact ⟨_, _, _, hfull habs, by simp⟩
  · cases habs : E.IsAbsolute uri with
    | false =>
      rw [open_uri_of_relative E uri w habs,
        open_uri_of_relative { E with ScanGenericTags := generic2 } uri w habs]
    | true =>
      rw [open_uri_of_native E uri w w1 path pairs habs hconv hscan hne,
        open_uri_of_native { E with ScanGenericTags := generic2 } uri w w1 path pairs habs
          hconv hscan hne]

/-- C8 at work: `/music/track.flac` has a `CUESHEET` tag in its native tags and another
cue sheet in its generic tags; the playlist holds the native one and the generic scan
is not called. -/
theorem open_uri_native_skips_generic_witness :
    (∃ kv ∈ [("CUESHEET".toList, "TRACK 01".toList)], isCuesheetPair kv = true) ∧
      "TRACK 01".toList ≠ [] ∧
      embcue_playlist_open_uri
          (logged (fileWithTags [("CUESHEET".toList, "TRACK 01".toList)]
            [("cuesheet".toList, "TRACK 09".toList)]))
          "/music/track.flac".toList ((), []) =
        Except.ok
          (some { filename := "track.flac".toList, cuesheet := "TRACK 01".toList, next := 0,
                  parser := ⟨none, []⟩ },
            ((), [CollaboratorCall.scanFileTagsNoGeneric, CollaboratorCall.newCueParser])) :=
  ⟨by decide!,
    (open_uri_native_skips_generic
      (fileWithTags [("CUESHEET".toList, "TRACK 01".toList)]
        [("cuesheet".toList, "TRACK 09".toList)])
      "/music/track.flac".toList () () "/music/track.flac".toList
      [("CUESHEET".toList, "TRACK 01".toList)] [] rfl rfl (by decide!)).2.2 rfl⟩

/-- C9: for an absolute path whose non-generic scan delivers no pair with the key
`cuesheet` and a non-empty value, and whose generic scan delivers one, the playlist is
returned, holding the value of the first such pair of the generic scan, which is not
empty, with `next` at offset 0. -/
theorem open_uri_generic_fallback {ω ε Path σ : Type} (E : Collaborators ω ε Path σ)
    (uri : List Char) (w w1 w2 : ω) (path : Path)
    (pairs pairs2 : List (List Char × List Char))
    (habs : E.IsAbsolute uri = true) (hconv : E.FromUTF8Throw uri = Except.ok path)
    (hscan : E.ScanFileTagsNoGeneric path w = Except.ok (pairs, w1))
    (hno : ∀ kv ∈ pairs, isCuesheetPair kv = false)
    (hscan2 : E.ScanGenericTags path w1 = Except.ok (pairs2, w2))
    (hyes : ∃ kv ∈ pairs2, isCuesheetPair kv = true) :
    embcue_playlist_open_uri E uri w =
        Except.ok
          (some { filename := E.GetBase uri, cuesheet := firstCuesheet pairs2, next := 0,
                  parser := (E.NewCueParser w2).1 },
            (E.NewCueParser w2).2) ∧
      firstCuesheet pairs2 ≠ [] := by
  have hne := firstCuesheet_of_some pairs2 hyes
  refine ⟨?_, hne⟩
  rw [open_uri_of_generic E uri w w1 w2 path pairs pairs2 habs hconv hscan
    (firstCuesheet_of_none pairs hno) hscan2, if_neg hne]

/-- C9 at work: the native tags of `/music/track.flac` hold an empty `CUESHEET` value
and the generic tags a cue sheet; the playlist holds the generic one. -/
theorem open_uri_generic_fallback_witness :
    ((∀ kv ∈ [("TITLE".toList, "Album".toList), ("CUESHEET".toList, [])],
          isCuesheetPair kv = false) ∧
        (∃ kv ∈ [("cuesheet".toList, "TRACK 09".toList)], isCuesheetPair kv = true)) ∧
      embcue_playlist_open_uri
          (fileWithTags [("TITLE".toList, "Album".toList), ("CUESHEET".toList, [])]
            [("cuesheet".toList, "TRACK 09".toList)])
          "/music/track.flac".toList () =
        Except.ok
          (some { filename := "track.flac".toList, cuesheet := "TRACK 09".toList, next := 0,
                  parser := ⟨none, []⟩ }, ()) :=
  ⟨⟨by decide!, by decide!⟩,
    (open_uri_generic_fallback
      (fileWithTags [("TITLE".toList, "Album".toList), ("CUESHEET".toList, [])]
        [("cuesheet".toList, "TRACK 09".toList)])
      "/music/track.flac".toList () () () "/music/track.flac".toList
      [("TITLE".toList, "Album".toList), ("CUESHEET".toList, [])]
      [("cuesheet".toList, "TRACK 09".toList)] rfl rfl rfl (by decide!) rfl (by decide!)).1⟩

/-- C10: when neither the non-generic nor the generic scan delivers a pair with the key
`cuesheet` (up to ASCII case) and a non-empty value, `embcue_playlist_open_uri` returns
null, and the parser constructor is not among the collaborators it called. -/
theorem open_uri_not_found {ω ε Path σ : Type} (E : Collaborators ω ε Path σ)
    (uri : List Char) (w w1 w2 : ω) (path : Path)
    (pairs pairs2 : List (List Char × List Char)) (log : List CollaboratorCall)
    (hconv : E.FromUTF8Throw uri = Except.ok path)
    (hscan : E.ScanFileTagsNoGeneric path w = Except.ok (pairs, w1))
    (hno : ∀ kv ∈ pairs, isCuesheetPair kv = false)
    (hscan2 : E.ScanGenericTags path w1 = Except.ok (pairs2, w2))
    (hno2 : ∀ kv ∈ pairs2, isCuesheetPair kv = false) :
    ∃ w3 calls,
      embcue_playlist_open_uri (logged E) uri (w, log) = Except.ok (none, (w3, log ++ calls)) ∧
        CollaboratorCall.newCueParser ∉ calls := by
  cases habs : E.IsAbsolute uri with
  | false =>
    refine ⟨w, [], ?_, by simp⟩
    rw [open_uri_of_relative (logged E) uri (w, log) habs, List.append_nil]
  | true =>
    have hscanL : (logged E).ScanFileTagsNoGeneric path (w, log) =
        Except.ok (pairs, (w1, log ++ [CollaboratorCall.scanFileTagsNoGeneric])) := by
      simp [logged, hscan]
    have hscanL2 : (logged E).ScanGenericTags path
          (w1, log ++ [CollaboratorCall.scanFileTagsNoGeneric]) =
        Except.ok (pairs2, (w2, log ++ [CollaboratorCall.scanFileTagsNoGeneric] ++
          [CollaboratorCall.scanGenericTags])) := by
      simp [logged, hscan2]
    refine ⟨w2, [CollaboratorCall.scanFileTagsNoGeneric, CollaboratorCall.scanGenericTags],
      ?_, by simp⟩
    rw [open_uri_of_generic (logged E) uri (w, log) _ _ path pairs pairs2 habs hconv hscanL
      (firstCuesheet_of_none pairs hno) hscanL2, if_pos (firstCuesheet_of_none pairs2 hno2)]
    simp

/-- C10 at work: `/music/track.flac` has no `CUESHEET` tag in its native tags and an
empty one in its generic tags; both scans run, null is returned and no parser is
made. -/
theorem open_uri_not_found_witness :
    ((∀ kv ∈ [("TITLE".toList, "Album".toList)], isCuesheetPair kv = false) ∧
        (∀ kv ∈ [("cuesheet".toList, ([] : List Char))], isCuesheetPair kv = false)) ∧
      (∃ w3 calls,
        embcue_playlist_open_uri
            (logged (fileWithTags [("TITLE".toList, "Album".toList)]
              [("cuesheet".toList, [])]))
            "/music/track.flac".toList ((), []) = Except.ok (none, (w3, [] ++ calls)) ∧
          CollaboratorCall.newCueParser ∉ calls) ∧
      embcue_playlist_open_uri
          (logged (fileWithTags [("TITLE".toList, "Album".toList)]
            [("cuesheet".toList, [])]))
          "/music/track.flac".toList ((), []) =
        Except.ok (none,
          ((), [CollaboratorCall.scanFileTagsNoGeneric, CollaboratorCall.scanGenericTags])) :=
  ⟨⟨by decide!, by decide!⟩,
    open_uri_not_found
      (fileWithTags [("TITLE".toList, "Album".toList)] [("cuesheet".toList, [])])
      "/music/track.flac".toList () () () "/music/track.flac".toList
      [("TITLE".toList, "Album".toList)] [("cuesheet".toList, [])] [] rfl rfl (by decide!) rfl
      (by decide!),
    rfl⟩

/-- C11, as stated, fails: for the path `/music/track.flac` given to
`embcue_playlist_open_uri`, the `filename` of the playlist is `track.flac`, not the
path given; and for the path `track.flac` itself, which is not absolute, no playlist
is returned. -/
theorem open_uri_filename_not_path :
    embcue_playlist_open_uri (fileWithTags [("CUESHEET".toList, "TRACK 01".toList)] [])
        "/music/track.flac".toList () =
        Except.ok
          (some { filename := "track.flac".toList, cuesheet := "TRACK 01".toList, next := 0,
                  parser := ⟨none, []⟩ }, ()) ∧
      "track.flac".toList ≠ "/music/track.flac".toList ∧
      embcue_playlist_open_uri (fileWithTags [("CUESHEET".toList, "TRACK 01".toList)] [])
        "track.flac".toList () = Except.ok (none, ()) :=
  ⟨rfl, by decide!, rfl⟩

/-- C11, amended: whenever `embcue_playlist_open_uri` returns a playlist, its `filename`
is `PathTraitsUTF8::GetBase` of the path given, the base name, and every descriptor
that any number of `NextSong` calls on the playlist return, with any parser, is located
there. -/
theorem open_uri_filename_base {ω ε Path σ α : Type} (E : Collaborators ω ε Path σ)
    (uri : List Char) (w w1 : ω) (pl : EmbeddedCuePlaylist σ)
    (h : embcue_playlist_open_uri E uri w = Except.ok (some pl, w1))
    (P : CueParser σ α) (n : Nat) :
    pl.filename = E.GetBase uri ∧
      ∃ rs pl1, NextSongs P n pl = some (rs, pl1) ∧
        ∀ song, some song ∈ rs → song.uri = E.GetBase uri := by
  obtain ⟨_, hname, _⟩ := open_uri_some E uri w w1 pl h
  refine ⟨hname, ?_⟩
  obtain ⟨rs, pl1, h1, h2⟩ := NextSongs_uri P n pl
  exact ⟨rs, pl1, h1, fun song hs => by rw [← hname]; exact h2 song hs⟩

/-- The amended C11 at work: `/music/track.flac` carries the cue sheet of the
specification in its `CUESHEET` tag; three `NextSong` calls return the tracks `A` and
`B`, located at `track.flac`, and then null. -/
theorem open_uri_filename_base_witness :
    embcue_playlist_open_uri
        (fileWithTags
          [("CUESHEET".toList, "TRACK 01\nTITLE \"A\"\nTRACK 02\nTITLE \"B\"".toList)] [])
        "/music/track.flac".toList () =
        Except.ok
          (some { filename := "track.flac".toList,
                  cuesheet := "TRACK 01\nTITLE \"A\"\nTRACK 02\nTITLE \"B\"".toList,
                  next := 0, parser := ⟨none, []⟩ }, ()) ∧
      (∃ rs pl1,
        NextSongs trackParser 3
            { filename := "track.flac".toList,
              cuesheet := "TRACK 01\nTITLE \"A\"\nTRACK 02\nTITLE \"B\"".toList,
              next := 0, parser := ⟨none, []⟩ } = some (rs, pl1) ∧
          ∀ song, some song ∈ rs → song.uri = "track.flac".toList) ∧
      (NextSongs trackParser 3
          { filename := "track.flac".toList,
            cuesheet := "TRACK 01\nTITLE \"A\"\nTRACK 02\nTITLE \"B\"".toList,
            next := 0, parser := ⟨none, []⟩ }).map Prod.fst =
        some [some ⟨"track.flac".toList, ['A']⟩, some ⟨"track.flac".toList, ['B']⟩, none] :=
  ⟨rfl,
    (open_uri_filename_base
      (fileWithTags
        [("CUESHEET".toList, "TRACK 01\nTITLE \"A\"\nTRACK 02\nTITLE \"B\"".toList)] [])
      "/music/track.flac".toList () ()
      { filename := "track.flac".toList,
        cuesheet := "TRACK 01\nTITLE \"A\"\nTRACK 02\nTITLE \"B\"".toList,
        next := 0, parser := ⟨none, []⟩ } rfl trackParser 3).2,
    by decide!⟩

/-- C13: a playlist returned by `embcue_playlist_open_uri` has `next` at offset 0. In
any state with `next` within the buffer and no NUL at or after `next` (as at offset 0 of
a text without NUL), a `NextSong` call with any parser returns and leaves a state of
that kind: `next` has not decreased and is within the buffer, whose length is kept,
and no NUL lies at or after it; and if the call has sent `Finish`, `next` is at the
end of the buffer. -/
theorem NextSong_cursor_invariant {σ α : Type} (P : CueParser σ α)
    (pl : EmbeddedCuePlaylist (σ × List ParserCall))
    (hle : pl.next ≤ pl.cuesheet.length)
    (hN : ∀ c ∈ pl.cuesheet.drop pl.next, c ≠ NUL) :
    (∀ {ω ε Path : Type} (E : Collaborators ω ε Path σ) (uri : List Char) (w w1 : ω)
        (made : EmbeddedCuePlaylist σ),
        embcue_playlist_open_uri E uri w = Except.ok (some made, w1) →
          made.next = 0 ∧ made.next ≤ made.cuesheet.length) ∧
      ∃ r pl1 calls, NextSong (traced P) pl = some (r, pl1) ∧
        pl1.parser.2 = pl.parser.2 ++ calls ∧
        pl.next ≤ pl1.next ∧ pl1.next ≤ pl1.cuesheet.length ∧
        pl1.cuesheet.length = pl.cuesheet.length ∧
        (∀ c ∈ pl1.cuesheet.drop pl1.next, c ≠ NUL) ∧
        (ParserCall.finish ∈ calls → pl1.next = pl1.cuesheet.length) := by
  constructor
  · intro ω ε Path E uri w w1 made h
    obtain ⟨_, _, h0, _⟩ := open_uri_some E uri w w1 made h
    exact ⟨h0, by rw [h0]; exact Nat.zero_le _⟩
  · obtain ⟨r, pl1, calls, h1, h2, h3, _, h5⟩ := NextSong_traced_finish P pl
    obtain ⟨hmono, hcl, _⟩ := NextSong_cursor (traced P) pl pl1 r h1
    obtain ⟨plA, k1, _, _, _, k5, _, k7, _⟩ := NextSong_refines (traced P) pl
    rw [h1] at k1
    have hpl : pl1 = plA := congrArg Prod.snd (Option.some.inj k1)
    subst hpl
    have hbound : pl1.next ≤ pl1.cuesheet.length := by rw [k5]; exact k7 hle
    have hfree : ∀ c ∈ pl1.cuesheet.drop pl1.next, c ≠ NUL := by
      intro c hc
      rw [hcl.drop_eq] at hc
      have hsplit : pl.cuesheet.drop pl1.next =
          (pl.cuesheet.drop pl.next).drop (pl1.next - pl.next) := by
        rw [List.drop_drop]
        congr 1
        omega
      rw [hsplit] at hc
      exact hN c (List.mem_of_mem_drop hc)
    refine ⟨r, pl1, calls, h1, h2, hmono, hbound, k5, hfree, fun hfin => ?_⟩
    have hcount : finishCount calls = 1 := by
      have : 0 < finishCount calls := List.count_pos_iff.2 hfin
      omega
    have hnul := h5 hcount
    by_contra hne
    have hlt : pl1.next < pl1.cuesheet.length := Nat.lt_of_le_of_ne hbound hne
    have hmem : pl1.cuesheet[pl1.next] ∈ pl1.cuesheet.drop pl1.next := by
      rw [List.drop_eq_getElem_cons hlt]
      exact List.mem_cons_self _ _
    apply hfree _ hmem
    unfold charAt at hnul
    simpa [List.getD, List.getElem?_eq_getElem hlt] using hnul

/-- C13 at work: the text `x`, LF, `y` at offset 0 with a parser that never completes a
descriptor; the call sends `Finish` and leaves `next` at 3, the length of the buffer. -/
theorem NextSong_cursor_invariant_witness :
    ((0 : Nat) ≤ "x\ny".toList.length ∧ (∀ c ∈ "x\ny".toList.drop 0, c ≠ NUL)) ∧
      (∃ r pl1 calls,
        NextSong (traced nullParser) ⟨"track.flac".toList, "x\ny".toList, 0, ((), [])⟩ =
          some (r, pl1) ∧
        pl1.parser.2 = [] ++ calls ∧
        0 ≤ pl1.next ∧ pl1.next ≤ pl1.cuesheet.length ∧
        pl1.cuesheet.length = "x\ny".toList.length ∧
        (∀ c ∈ pl1.cuesheet.drop pl1.next, c ≠ NUL) ∧
        (ParserCall.finish ∈ calls → pl1.next = pl1.cuesheet.length)) ∧
      NextSong (traced nullParser) ⟨"track.flac".toList, "x\ny".toList, 0, ((), [])⟩ =
        some (none, ⟨"track.flac".toList, ['x', NUL, 'y'], 3,
          ((), [ParserCall.get, ParserCall.feed ['x'], ParserCall.get, ParserCall.feed ['y'],
            ParserCall.get, ParserCall.finish, ParserCall.get])⟩) :=
  ⟨⟨by decide!, by decide!⟩,
    (NextSong_cursor_invariant nullParser
      ⟨"track.flac".toList, "x\ny".toList, 0, ((), [])⟩ (by decide!) (by decide!)).2,
    by decide!⟩

/-- C14: one `NextSong` call, from any state and with any parser. If the entry drain
yields a descriptor, it is returned located at `filename`, the only parser call is that
drain, and the buffer and `next` are unchanged. Otherwise the call feeds the lines
`consumed`, an initial part of the lines pending, each followed by one drain, and
leaves `next` where that many `takeLine` steps put it (one past the delimiter of the
last line fed), the other lines still pending; every drain but the last yields
nothing; and either the last drain yields the descriptor returned, or no drain yields
one, every pending line is fed, and `Finish` and the final drain follow. -/
theorem NextSong_minimal_input {σ α : Type} (P : CueParser σ α)
    (pl : EmbeddedCuePlaylist (σ × List ParserCall)) :
    (∀ song0, (P.Get pl.parser.1).1 = some song0 →
        NextSong (traced P) pl =
          some (some (song0.SetURI pl.filename),
            { pl with parser := ((P.Get pl.parser.1).2, pl.parser.2 ++ [ParserCall.get]) })) ∧
      ((P.Get pl.parser.1).1 = none →
        ∃ r pl1 consumed, NextSong (traced P) pl = some (r, pl1) ∧
          consumed ++ pendingLines pl1.cuesheet pl1.next = pendingLines pl.cuesheet pl.next ∧
          (pl1.cuesheet, pl1.next) = takeLines consumed.length (pl.cuesheet, pl.next) ∧
          (∀ pre l post, consumed = pre ++ l :: post → post ≠ [] →
            (P.Get (P.Feed (afterLines P (P.Get pl.parser.1).2 pre) l)).1 = none) ∧
          ((∃ pre l song0, consumed = pre ++ [l] ∧
              (P.Get (P.Feed (afterLines P (P.Get pl.parser.1).2 pre) l)).1 = some song0 ∧
              r = some (song0.SetURI pl.filename) ∧
              pl1.parser.2 = pl.parser.2 ++ ParserCall.get :: feedCalls consumed) ∨
            ((∀ pre l post, consumed = pre ++ l :: post →
                (P.Get (P.Feed (afterLines P (P.Get pl.parser.1).2 pre) l)).1 = none) ∧
              pendingLines pl1.cuesheet pl1.next = [] ∧
              pl1.parser.2 = pl.parser.2 ++ (ParserCall.get :: feedCalls consumed ++
                [ParserCall.finish, ParserCall.get])))) := by
  rcases hpar : pl.parser with ⟨s, log⟩
  constructor
  · intro song0 hsome
    have hg : P.Get s = (some song0, (P.Get s).2) := Prod.ext hsome rfl
    have hT : (traced P).Get (s, log) =
        (some song0, ((P.Get s).2, log ++ [ParserCall.get])) := by
      simp only [traced]
      rw [hsome]
    simp only [NextSong, hpar, hT]
  · intro hnone
    have hg : P.Get s = (none, (P.Get s).2) := Prod.ext hnone rfl
    obtain ⟨pl1, h1, h2, h3, _⟩ := NextSong_refines (traced P) pl
    rw [hpar] at h1 h2 h3
    obtain ⟨consumed, c1, c2, c3, c4⟩ :=
      drive_traced_of_idle P pl.filename s (P.Get s).2 log
        (pendingLines pl.cuesheet pl.next) hg
    obtain ⟨consumed2, m1, m2, m3, m4⟩ :=
      driveLines_minimal P pl.filename (P.Get s).2 (pendingLines pl.cuesheet pl.next)
    have hsame : consumed2 = consumed := List.append_cancel_right (m1.trans c1.symm)
    subst hsame
    have hpend : consumed2 ++ pendingLines pl1.cuesheet pl1.next =
        pendingLines pl.cuesheet pl.next := by
      rw [h3, c2]; exact c1
    obtain ⟨_, _, k, k1, k2⟩ := NextSong_cursor (traced P) pl pl1 _ h1
    have hk : consumed2.length = k := by
      have := congrArg List.length hpend
      rw [List.length_append] at this
      omega
    refine ⟨_, pl1, consumed2, h1, hpend, by rw [hk]; exact k1, m2, ?_⟩
    cases hd : (driveLines P pl.filename (P.Get s).2 (pendingLines pl.cuesheet pl.next)).1 with
    | some song =>
      obtain ⟨pre, l, song0, e1, e2, e3⟩ := m4 song hd
      obtain ⟨t1, t2⟩ := c3 song hd
      exact Or.inl ⟨pre, l, song0, e1, e2, by rw [t1, e3], by rw [h2, t2]⟩
    | none =>
      have hrest := driveLines_none P pl.filename (P.Get s).2 _ hd
      exact Or.inr ⟨m3 hd, by rw [h3, c2]; exact hrest, by rw [h2, c4 hd]⟩

/-- C15: for a text without NUL and any number `n` of successive `NextSong` calls from
offset 0, with any parser: wherever the log holds a `Finish` call, no `Feed` call
follows it, and the calls before it have fed every line of the text. -/
theorem NextSongs_no_feed_after_finish {σ α : Type} (P : CueParser σ α) (s0 : σ)
    (filename text : List Char) (n : Nat) (hN : ∀ c ∈ text, c ≠ NUL) :
    ∃ rs pl1, NextSongs (traced P) n ⟨filename, text, 0, (s0, [])⟩ = some (rs, pl1) ∧
      ∀ a b, pl1.parser.2 = a ++ ParserCall.finish :: b →
        feedsOf b = [] ∧ feedsOf a = splitLines text := by
  obtain ⟨rs, pl1, h1, hE, _⟩ := NextSongs_traced_log P s0 filename text n hN
  exact ⟨rs, pl1, h1, fun a b hab => hE.cut_at_finish a b hab⟩

/-- C15 at work: three calls on the text `x`, LF, `y` with a parser that never completes
a descriptor; the log holds both feeds, then `Finish` three times and no feed after the
first of them. -/
theorem NextSongs_no_feed_after_finish_witness :
    (∀ c ∈ "x\ny".toList, c ≠ NUL) ∧
      (∃ rs pl1,
        NextSongs (traced nullParser) 3 ⟨"track.flac".toList, "x\ny".toList, 0, ((), [])⟩ =
          some (rs, pl1) ∧
        ∀ a b, pl1.parser.2 = a ++ ParserCall.finish :: b →
          feedsOf b = [] ∧ feedsOf a = splitLines "x\ny".toList) ∧
      (NextSongs (traced nullParser) 3
          ⟨"track.flac".toList, "x\ny".toList, 0, ((), [])⟩).map (fun r => r.2.parser.2) =
        some [ParserCall.get, ParserCall.feed ['x'], ParserCall.get, ParserCall.feed ['y'],
          ParserCall.get, ParserCall.finish, ParserCall.get, ParserCall.get,
          ParserCall.finish, ParserCall.get, ParserCall.get, ParserCall.finish,
          ParserCall.get] :=
  ⟨by decide!,
    NextSongs_no_feed_after_finish nullParser () "track.flac".toList "x\ny".toList 3
      (by decide!),
    by decide!⟩

/-- C16, as stated, fails: a `NextSong` call on the text `x`, LF, `y` leaves the buffer
holding `x`, NUL, `y`. -/
theorem NextSong_buffer_changed :
    NextSong nullParser ⟨"track.flac".toList, "x\ny".toList, 0, ()⟩ =
        some (none, ⟨"track.flac".toList, ['x', NUL, 'y'], 3, ()⟩) ∧
      ['x', NUL, 'y'] ≠ "x\ny".toList := by
  decide!

/-- C16, amended: a `NextSong` call, from any state and with any parser, changes the
buffer only by writing NUL over CR and LF characters between the old and the new
`next`: the length is kept, every position whose character differs lies at or after
the old `next` and before the new one, held CR or LF and holds NUL; the characters at
and after the new `next` and the `filename` are unchanged. -/
theorem NextSong_buffer_frame {σ α : Type} (P : CueParser σ α)
    (pl pl1 : EmbeddedCuePlaylist σ) (r : Option (DetachedSong α))
    (h : NextSong P pl = some (r, pl1)) :
    pl1.cuesheet.length = pl.cuesheet.length ∧
      (∀ i, pl1.cuesheet[i]? ≠ pl.cuesheet[i]? →
        pl.next ≤ i ∧ i < pl1.next ∧
          (pl.cuesheet[i]? = some CR ∨ pl.cuesheet[i]? = some LF) ∧
          pl1.cuesheet[i]? = some NUL) ∧
      pl1.cuesheet.drop pl1.next = pl.cuesheet.drop pl1.next ∧
      pl1.filename = pl.filename := by
  obtain ⟨_, hcl, _⟩ := NextSong_cursor P pl pl1 r h
  obtain ⟨plA, k1, _, _, k4, _⟩ := NextSong_refines P pl
  rw [h] at k1
  have hpl : pl1 = plA := congrArg Prod.snd (Option.some.inj k1)
  subst hpl
  exact ⟨hcl.1, hcl.2, hcl.drop_eq, k4⟩

/-- The amended C16 at work, on the call that changes the buffer of the text `x`, LF,
`y`. -/
theorem NextSong_buffer_frame_witness :
    NextSong nullParser ⟨"track.flac".toList, "x\ny".toList, 0, ()⟩ =
        some (none, ⟨"track.flac".toList, ['x', NUL, 'y'], 3, ()⟩) ∧
      (['x', NUL, 'y'].length = "x\ny".toList.length ∧
        (∀ i, ['x', NUL, 'y'][i]? ≠ "x\ny".toList[i]? →
          0 ≤ i ∧ i < 3 ∧ ("x\ny".toList[i]? = some CR ∨ "x\ny".toList[i]? = some LF) ∧
            ['x', NUL, 'y'][i]? = some NUL) ∧
        ['x', NUL, 'y'].drop 3 = "x\ny".toList.drop 3 ∧
        "track.flac".toList = "track.flac".toList) :=
  ⟨by decide!,
    NextSong_buffer_frame nullParser ⟨"track.flac".toList, "x\ny".toList, 0, ()⟩
      ⟨"track.flac".toList, ['x', NUL, 'y'], 3, ()⟩ none (by decide!)⟩

/-- C17: every iteration of the feeding loop moves `next` forward by at least one
character and not past the end of the buffer; and every `NextSong` call, from any state
and with any parser, returns, having fed at most as many lines as there are characters
at or after `next`. -/
theorem NextSong_terminates {σ α : Type} (P : CueParser σ α)
    (pl : EmbeddedCuePlaylist (σ × List ParserCall)) :
    (∀ (buf : List Char) (next : Nat), charAt buf next ≠ NUL →
        next < (takeLine buf next).2 ∧ (takeLine buf next).2 ≤ buf.length) ∧
      ∃ r pl1 calls, NextSong (traced P) pl = some (r, pl1) ∧
        pl1.parser.2 = pl.parser.2 ++ calls ∧
        (feedsOf calls).length ≤ pl.cuesheet.length - pl.next := by
  refine ⟨fun buf next h => ⟨(takeLine_spec buf next h).2.2.1, (takeLine_spec buf next h).2.2.2⟩,
    ?_⟩
  obtain ⟨pl1, h1, h2, _⟩ := NextSong_refines (traced P) pl
  rcases hpar : pl.parser with ⟨s, log⟩
  rw [hpar] at h1 h2
  obtain ⟨_, _, _, hcase⟩ :=
    drive_traced P pl.filename s log (pendingLines pl.cuesheet pl.next)
  have hbound := pendingLines_length_le pl.cuesheet pl.next
  refine ⟨(drive (traced P) pl.filename (s, log) (pendingLines pl.cuesheet pl.next)).1,
    pl1, ?_⟩
  rcases hcase with ⟨consumed, _, hcons, hlog, _⟩ | ⟨_, hlog, _⟩
  · refine ⟨ParserCall.get :: feedCalls consumed, h1, by rw [h2, hlog], ?_⟩
    have hlen : consumed.length ≤ (pendingLines pl.cuesheet pl.next).length := by
      rw [← hcons, List.length_append]
      omega
    simp only [feedsOf, feedsOf_feedCalls]
    omega
  · refine ⟨_, h1, by rw [h2, hlog], ?_⟩
    rw [feedsOf_append]
    simp only [feedsOf, feedsOf_feedCalls, List.append_nil]
    exact hbound

/-- C18: for a uri that is not an absolute path, `embcue_playlist_open_uri` returns null
and leaves the log of collaborator calls as it was: neither scan is called and no parser
is made, whatever the scans would deliver or throw. -/
theorem open_uri_relative_no_scan {ω ε Path σ : Type} (E : Collaborators ω ε Path σ)
    (uri : List Char) (w : ω) (log : List CollaboratorCall)
    (habs : E.IsAbsolute uri = false) :
    embcue_playlist_open_uri (logged E) uri (w, log) = Except.ok (none, (w, log)) :=
  open_uri_of_relative (logged E) uri (w, log) habs

/-- C18 at work: `track.flac` is not absolute; its tags hold a cue sheet, and the result
is null with no collaborator called. -/
theorem open_uri_relative_no_scan_witness :
    (fileWithTags [("CUESHEET".toList, "TRACK 01".toList)]
          [("CUESHEET".toList, "TRACK 01".toList)]).IsAbsolute "track.flac".toList = false ∧
      embcue_playlist_open_uri
          (logged (fileWithTags [("CUESHEET".toList, "TRACK 01".toList)]
            [("CUESHEET".toList, "TRACK 01".toList)]))
          "track.flac".toList ((), []) = Except.ok (none, ((), [])) :=
  ⟨rfl,
    open_uri_relative_no_scan
      (fileWithTags [("CUESHEET".toList, "TRACK 01".toList)]
        [("CUESHEET".toList, "TRACK 01".toList)])
      "track.flac".toList () [] rfl⟩

/-- C19: for every `ConsumeMode` value `m`, `ConsumeFromString (ConsumeToString m)`
returns `m` and does not throw; `ConsumeToString` is injective, its values being `0`,
`1` and `oneshot`. -/
theorem ConsumeFromString_ConsumeToString :
    (∀ m : ConsumeMode, ConsumeFromString (ConsumeToString m) = Except.ok m) ∧
      (∀ m1 m2 : ConsumeMode, ConsumeToString m1 = ConsumeToString m2 → m1 = m2) ∧
      ConsumeToString ConsumeMode.OFF = "0".toList ∧
      ConsumeToString ConsumeMode.ON = "1".toList ∧
      ConsumeToString ConsumeMode.ONE_SHOT = "oneshot".toList := by
  refine ⟨?_, ?_, rfl, rfl, rfl⟩
  · intro m
    cases m <;> rfl
  · intro m1 m2 h
    cases m1 <;> cases m2 <;> first | rfl | (exact absurd h (by decide))

/-- C20: for every C string `s`, `ConsumeFromString s` throws `invalid_argument` if and
only if `s` is none of `0`, `1`, `oneshot`, compared exactly; it returns `OFF`, `ON`,
`ONE_SHOT` for these three; whenever it returns a mode, `ConsumeToString` of that mode
is `s`; and the comparison is case-sensitive: `ONESHOT` is rejected. -/
theorem ConsumeFromString_throws_iff (s : List Char) :
    ((∃ what, ConsumeFromString s = Except.error (ConsumeError.invalid_argument what)) ↔
        (s ≠ "0".toList ∧ s ≠ "1".toList ∧ s ≠ "oneshot".toList)) ∧
      (s = "0".toList → ConsumeFromString s = Except.ok ConsumeMode.OFF) ∧
      (s = "1".toList → ConsumeFromString s = Except.ok ConsumeMode.ON) ∧
      (s = "oneshot".toList → ConsumeFromString s = Except.ok ConsumeMode.ONE_SHOT) ∧
      (∀ m, ConsumeFromString s = Except.ok m → ConsumeToString m = s) ∧
      (∃ what, ConsumeFromString "ONESHOT".toList =
        Except.error (ConsumeError.invalid_argument what)) := by
  refine ⟨?_, ?_, ?_, ?_, ?_, ⟨_, rfl⟩⟩
  · by_cases h0 : s = "0".toList
    · subst h0
      constructor
      · rintro ⟨what, h⟩
        exact absurd h (by simp [ConsumeFromString])
      · rintro ⟨h, _⟩
        exact absurd rfl h
    · by_cases h1 : s = "1".toList
      · subst h1
        constructor
        · rintro ⟨what, h⟩
          exact absurd h (by simp [ConsumeFromString])
        · rintro ⟨_, h, _⟩
          exact absurd rfl h
      · by_cases h2 : s = "oneshot".toList
        · subst h2
          constructor
          · rintro ⟨what, h⟩
            exact absurd h (by simp [ConsumeFromString])
          · rintro ⟨_, _, h⟩
            exact absurd rfl h
        · constructor
          · intro _
            exact ⟨h0, h1, h2⟩
          · intro _
            refine ⟨"Unrecognized consume mode, expected 0, 1, or oneshot", ?_⟩
            unfold ConsumeFromString
            rw [if_neg h0, if_neg h1, if_neg h2]
  · intro h; subst h; rfl
  · intro h; subst h; rfl
  · intro h; subst h; rfl
  · intro m hm
    unfold ConsumeFromString at hm
    by_cases h0 : s = "0".toList
    · rw [if_pos h0] at hm
      cases hm
      exact h0.symm
    · rw [if_neg h0] at hm
      by_cases h1 : s = "1".toList
      · rw [if_pos h1] at hm
        cases hm
        exact h1.symm
      · rw [if_neg h1] at hm
        by_cases h2 : s = "oneshot".toList
        · rw [if_pos h2] at hm
          cases hm
          exact h2.symm
        · rw [if_neg h2] at hm
          cases hm

end MPD
